import Mathlib

/-!
Verification of the msh shell core (src/shuck.c) against its specification.

The C source is shallowly embedded: every pure computation of the shell
(tokenizing, redirection validation, history access, glob rewriting,
command resolution, argument slicing) is translated into an executable
Lean function, and the effectful orchestration of `execute_command` is
modelled as a pure function from an environment oracle (path contents,
executability, file permissions, glob matches, the history log) to the
list of observable events (diagnostics, spawns, exits) plus the updated
history log.
-/

namespace Shuck

/-! ## Tokenizer (shuck.c `tokenize`, lines 1142-1191)

`WORD_SEPARATORS = " \t\r\n"` and `SPECIAL_CHARS = "!><|"` (lines 50-56).
The C loop repeatedly skips separators, then takes
`min (strcspn s separators) (max 1 (strcspn s specials))` characters as the
next token.  The loop consumes at least one character per iteration, so it
is embedded with a fuel parameter equal to the input length. -/

def isSep (c : Char) : Bool :=
  c == ' ' || c == '\t' || c == '\r' || c == '\n'

def isSpecial (c : Char) : Bool :=
  c == '!' || c == '>' || c == '<' || c == '|'

/-- One iteration's token length: `strcspn(s, separators)` capped by
`strcspn(s, special_chars)` (the latter bumped to 1 when it is 0),
exactly as in lines 1164-1171 of the source. -/
def tokLen (sep spec : Char → Bool) (s1 : List Char) : Nat :=
  let length := (s1.takeWhile (fun c => !sep c)).length
  let lws0 := (s1.takeWhile (fun c => !spec c)).length
  let lws := if lws0 = 0 then 1 else lws0
  if lws < length then lws else length

/-- The tokenize loop (lines 1151-1181), fuel-indexed.  Each iteration drops
leading separators, stops on the empty rest, otherwise emits the next token
of `tokLen` characters and continues on the remainder. -/
def tokenizeF (sep spec : Char → Bool) : Nat → List Char → List (List Char)
  | 0, _ => []
  | fuel + 1, s =>
    let s1 := s.dropWhile sep
    match s1 with
    | [] => []
    | _ :: _ =>
      let n := tokLen sep spec s1
      s1.take n :: tokenizeF sep spec fuel (s1.drop n)

/-- `tokenize` as called on input lines (line 123-124): word separators are
whitespace, special characters are `!><|`.  The loop runs at most
`s.length` iterations, so that much fuel is exact. -/
def tokenize (s : List Char) : List (List Char) :=
  tokenizeF isSep isSpecial s.length s

def tokenizeStr (s : String) : List String :=
  (tokenize s.data).map fun cs => String.mk cs

/-! ### Specification-side tokenizer

Modelled from the spec's words (§4.1): the line is split into maximal runs
of non-separator characters, and inside each run every special character
becomes its own single-character token, the remaining maximal special-free
chunks staying whole. -/

/-- Maximal runs of characters not satisfying `sep`, in order. -/
def sepRuns (sep : Char → Bool) : List Char → List (List Char)
  | [] => []
  | c :: cs =>
    if sep c then sepRuns sep cs
    else
      match sepRuns sep cs, cs.head? with
      | t :: ts, some d => if sep d then [c] :: t :: ts else (c :: t) :: ts
      | _, _ => [[c]]

/-- Split one run so that each special character is isolated as its own
single-character token and maximal special-free chunks stay whole. -/
def splitSpecials (spec : Char → Bool) : List Char → List (List Char)
  | [] => []
  | c :: cs =>
    if spec c then [c] :: splitSpecials spec cs
    else
      match splitSpecials spec cs, cs.head? with
      | t :: ts, some d => if spec d then [c] :: t :: ts else (c :: t) :: ts
      | _, _ => [[c]]

/-- Spec tokenizer: maximal separator-delimited runs, specials isolated. -/
def specTokenize (sep spec : Char → Bool) (s : List Char) : List (List Char) :=
  (sepRuns sep s).flatMap (splitSpecials spec)

/-! ## Observable effects and the environment oracle

`execute_command` interacts with the operating system through
`posix_spawn`, `stat`, `glob`, and the history file.  Those interactions
are abstracted into an oracle (`Env`) plus a trace of observable events. -/

/-- Open flags passed to `posix_spawn_file_actions_addopen`. -/
inductive OFlag where
  | creat
  | wronly
  | append
  | trunc
  | rdonly
  deriving DecidableEq, Repr

/-- Where a pipeline stage's standard input comes from. -/
inductive StdinSrc where
  | inherited
  | fromFile (f : String)
  | fromPipe (k : Nat)
  deriving DecidableEq, Repr

/-- Where a pipeline stage's standard output goes. -/
inductive StdoutDst where
  | inherited
  | toPipe (k : Nat)
  | toFile (f : String) (flags : List OFlag)
  deriving DecidableEq, Repr

/-- Observable events of one `execute_command` invocation: each
diagnostic the C code prints on stderr, each recalled line echoed, each
history listing printed, each child process spawned, and `exit`. -/
inductive Event where
  | errBuiltinRedir (prog : String)
  | errTooManyArgs (prog : String)
  | errNumericRequired (prog arg : String)
  | errInvalidInputRedir
  | errInvalidOutputRedir
  | errInvalidPipe
  | errInvalidHistoryRef
  | errNoHistoryFile
  | errCommandNotFound (prog : String)
  | errFileNotFound (f : String)
  | errPermissionDenied (f : String)
  | echoed (line : String)
  | printedHistory (entries : List (Nat × String))
  | ranPwd
  | ranCd (dir : Option String)
  | spawnedDirect (prog : String) (args : List String)
  | spawnedRedirected (prog : String) (args : List String)
      (inFile : Option String) (outFile : Option (String × List OFlag))
  | spawnedStage (prog : String) (args : List String)
      (stdin : StdinSrc) (stdout : StdoutDst)
  | exited (code : Int)
  | crashed
  deriving DecidableEq, Repr

/-- Does the event spawn a child process? -/
def Event.isSpawn : Event → Bool
  | .spawnedDirect _ _ => true
  | .spawnedRedirected _ _ _ _ => true
  | .spawnedStage _ _ _ _ => true
  | _ => false

/-- Is the event a diagnostic printed on the error stream? -/
def Event.isErr : Event → Bool
  | .errBuiltinRedir _ => true
  | .errTooManyArgs _ => true
  | .errNumericRequired _ _ => true
  | .errInvalidInputRedir => true
  | .errInvalidOutputRedir => true
  | .errInvalidPipe => true
  | .errInvalidHistoryRef => true
  | .errNoHistoryFile => true
  | .errCommandNotFound _ => true
  | .errFileNotFound _ => true
  | .errPermissionDenied _ => true
  | _ => false

/-- `stat` result for a file: user read/write permission bits. -/
structure Perm where
  readable : Bool
  writable : Bool
  deriving DecidableEq, Repr

/-- Oracle for the operating-system facts `execute_command` consults:
the search-path directories, `is_executable` (stat + S_ISREG + faccessat,
lines 1124-1133), raw `glob(3)` matches for a pattern, and `stat`
permission data (`none` when the file does not exist). -/
structure Env where
  path : List String
  isExec : String → Bool
  glob : String → List String
  fileStat : String → Option Perm

/-! ## Redirection validation (`redirection_check_arg`, lines 580-659) -/

/-- The mutable counters of `redirection_check_arg`. -/
structure RCSt where
  inputCount : Nat
  outputCount : Nat
  pipeCount : Nat
  inputErr : Nat
  outputErr : Nat
  pipeErr : Nat
  deriving DecidableEq, Repr

def RCSt.init : RCSt := ⟨0, 0, 0, 0, 0, 0⟩

/-- One pass of the `for` loop of `redirection_check_arg` at index `i`,
fuel-indexed (the fuel equals `count`, one unit per index).  A `<` in an
invalid position executes `break`, modelled by returning the state without
recursing.  The integer comparisons `i == count - 3`, `i == count - 2`,
`i == count - 1` are rendered as `i + 3 = count` etc., which agree with
the C `int` arithmetic for every `i, count ≥ 0`. -/
def rcLoop (words : List String) (count : Nat) : Nat → Nat → RCSt → RCSt
  | 0, _, st => st
  | fuel + 1, i, st =>
    if i < count then
      let w := words.getD i ""
      if w = "<" then
        if count < 3 then { st with inputErr := st.inputErr + 1 }
        else if i = 0 then
          rcLoop words count fuel (i + 1) { st with inputCount := st.inputCount + 1 }
        else { st with inputErr := st.inputErr + 1 }
      else if w = ">" then
        let st1 := if count < 3 then { st with outputErr := st.outputErr + 1 } else st
        let st2 :=
          if i = 0 then { st1 with outputErr := st1.outputErr + 1 }
          else if i + 3 = count then
            if words.getD (i + 1) "" = ">" then
              { st1 with outputCount := st1.outputCount + 1 }
            else { st1 with outputErr := st1.outputErr + 1 }
          else if i + 2 = count then { st1 with outputCount := st1.outputCount + 1 }
          else { st1 with outputErr := st1.outputErr + 1 }
        rcLoop words count fuel (i + 1) st2
      else if w = "|" then
        let st1 := if count < 3 then { st with pipeErr := st.pipeErr + 1 } else st
        let st2 :=
          if i = 0 then { st1 with pipeErr := st1.pipeErr + 1 }
          else if i + 1 = count then { st1 with pipeErr := st1.pipeErr + 1 }
          else if words.getD (i - 1) "" = "|" then { st1 with pipeErr := st1.pipeErr + 1 }
          else { st1 with pipeCount := st1.pipeCount + 1 }
        rcLoop words count fuel (i + 1) st2
      else rcLoop words count fuel (i + 1) st
    else st

/-- `redirection_check_arg`: returns the `<` / `>` / `|` counters on
success, or the first applicable diagnostic (input before output before
pipe, lines 646-656). -/
def redirection_check_arg (words : List String) : Except Event (Nat × Nat × Nat) :=
  let st := rcLoop words words.length words.length 0 RCSt.init
  if st.inputErr > 0 then .error .errInvalidInputRedir
  else if st.outputErr > 0 then .error .errInvalidOutputRedir
  else if st.pipeErr > 0 then .error .errInvalidPipe
  else .ok (st.inputCount, st.outputCount, st.pipeCount)

/-! ## History store (`store_command`, `load_command`, `print_history`,
`history_check_arg`, `exclamation_check_arg`)

The history file `~/.msh_history` is modelled as `Option (List String)`:
`none` when the file does not exist (so `fopen` for reading fails and
`perror` runs), `some lines` otherwise, one entry per line. -/

/-- Join words with single spaces: the line `store_command` appends
(lines 478-486). -/
def unwords (ws : List String) : String := String.intercalate " " ws

/-- `store_command` (lines 467-489): append the joined words as a new line
of the history file, creating the file when absent. -/
def store_command (hist : Option (List String)) (words : List String) :
    Option (List String) :=
  some (hist.getD [] ++ [unwords words])

/-- The digits test used by `history_check_arg` and
`exclamation_check_arg` (every character a digit; lines 386-391). -/
def allDigits (s : String) : Bool := s.data.all Char.isDigit

/-- `atoi` on an all-digits token. -/
def atoiNat (s : String) : Nat :=
  s.data.foldl (fun a c => a * 10 + (c.toNat - 48)) 0

/-- `history_check_arg` (lines 376-403): at most one argument, which must
be numeric; default is `DEFAULT_HISTORY_SHOWN = 10`. -/
def history_check_arg (count : Nat) (words : List String) : Except Event Nat :=
  if count > 2 then .error (.errTooManyArgs "history")
  else if count = 2 then
    let w := words.getD 1 ""
    if allDigits w then .ok (atoiNat w)
    else .error (.errNumericRequired "history" w)
  else .ok 10

/-- `exclamation_check_arg` (lines 406-431): like `history_check_arg`,
with default -1 meaning the last entry. -/
def exclamation_check_arg (count : Nat) (words : List String) : Except Event Int :=
  if count > 2 then .error (.errTooManyArgs "!")
  else if count = 2 then
    let w := words.getD 1 ""
    if allDigits w then .ok ((atoiNat w : Int))
    else .error (.errNumericRequired "!" w)
  else .ok (-1)

/-- `load_command` (lines 492-525): read the history file (error when it
does not exist), then return entry `n`, the last entry for `n = -1`, or
the range diagnostic when `n` exceeds the maximum index.  (For an
existing but empty file with `n = -1` the C reads `data[-1]`, which is
out of bounds; the program itself never creates an empty history file,
and the model returns the empty string there.) -/
def load_command (hist : Option (List String)) (n : Int) : Except Event String :=
  match hist with
  | none => .error .errNoHistoryFile
  | some data =>
    let maxHistory : Int := (data.length : Int) - 1
    if n = -1 then .ok (data.getD (data.length - 1) "")
    else if n > maxHistory then .error .errInvalidHistoryRef
    else .ok (data.getD n.toNat "")

/-- `print_history` (lines 435-464): with `i` lines on file, print the
lines indexed from `i - 1 - num` (clamped at 0) up to `i - 2`, each
prefixed by its index.  Truncated `Nat` subtraction renders the C clamp
exactly. -/
def print_history (data : List String) (num : Nat) : List (Nat × String) :=
  let i := data.length
  let start := i - 1 - num
  (List.range' start (i - 1 - start)).map fun j => (j, data.getD j "")

/-! ## Glob expansion (`check_glob`, lines 529-577) -/

def isMeta (c : Char) : Bool :=
  c == '*' || c == '?' || c == '[' || c == '~'

def hasMeta (w : String) : Bool := w.data.any isMeta

/-- Indices of words containing a glob metacharacter, in word order: the
contents of the `word_num` array. -/
def globIndices (words : List String) : List Nat :=
  (List.range words.length).filter fun i => hasMeta (words.getD i "")

/-- One `glob(3)` call with `GLOB_NOCHECK`: the pattern itself when there
is no match. -/
def globNoCheck (g : String → List String) (pat : String) : List String :=
  match g pat with
  | [] => [pat]
  | ms => ms

/-- `check_glob`: `none` when no word holds a metacharacter; otherwise
the rebuilt line `words[0] ++ " " ++ matches ++ "\n"`.  The C loop over
`word_num` runs while the entry is nonzero, so a flagged index 0 stops it
immediately: modelled by `takeWhile (· ≠ 0)`. -/
def check_glob (g : String → List String) (words : List String) : Option String :=
  let flagged := globIndices words
  if flagged.isEmpty then none
  else
    let processed := flagged.takeWhile fun i => i ≠ 0
    let ms := processed.flatMap fun i => globNoCheck g (words.getD i "")
    some (words.getD 0 "" ++ " " ++ String.intercalate " " ms ++ "\n")

/-! ## `exit` builtin (`do_exit`, lines 1097-1117) -/

/-- `strtol` in base 10: optional sign then a digit run; returns the value
and the unparsed remainder (the remainder is the whole input when no
digits were consumed, matching `endptr = nptr`). -/
def strtolInt (s : String) : Int × String :=
  let step : Int × List Char → Int × String := fun (sign, cs1) =>
    let digits := cs1.takeWhile Char.isDigit
    let rest := cs1.dropWhile Char.isDigit
    if digits.isEmpty then (0, s)
    else (sign * (atoiNat (String.mk digits) : Int), String.mk rest)
  match s.data with
  | '-' :: t => step (-1, t)
  | '+' :: t => step (1, t)
  | cs => step (1, cs)

/-- `do_exit`: the `exit(exit_status)` at line 1116 is unconditional, so
every branch terminates the interpreter.  With two or more arguments
print the count diagnostic and exit 0; with one argument parse it, print
the numeric diagnostic if the parse left residue, and exit with the
parsed value regardless; with no argument exit 0.  The
`assert(strcmp(words[0], "exit") == 0)` aborts the process when
`execute_command` dispatches here via `< file exit`. -/
def do_exit (words : List String) : List Event :=
  if words.getD 0 "" ≠ "exit" then [.crashed]
  else
    match words.get? 1, words.get? 2 with
    | some _, some _ => [.errTooManyArgs "exit", .exited 0]
    | some w, none =>
      let (v, rest) := strtolInt w
      if rest ≠ "" then [.errNumericRequired "exit" w, .exited v]
      else [.exited v]
    | none, _ => [.exited 0]

/-! ## Command resolution (`execute_command` lines 294-335, `is_executable`) -/

/-- `strrchr(s, c) != NULL`: does the string contain the character? -/
def containsChar (s : String) (c : Char) : Bool :=
  s.data.contains c

/-- The `$PATH` search of `execute_command` (lines 296-309): a program
token containing `/` is left alone; otherwise the first directory whose
combination passes `is_executable` replaces it; when none does the token
stays bare (and line 311 then applies `is_executable` to it directly,
i.e. relative to the working directory). -/
def resolveProgram (env : Env) (program : String) : String :=
  if containsChar program '/' then program
  else
    match env.path.find? (fun d => env.isExec (d ++ "/" ++ program)) with
    | some d => d ++ "/" ++ program
    | none => program

/-! ## Redirected execution (`in_out_redirection`, lines 663-801) -/

/-- The stat prechecks shared verbatim by `in_out_redirection`
(lines 666-693) and `pipes` (lines 913-941): with `<`, the input file
must exist (`perror` otherwise) and be user-readable; with `>`, the
output file must be user-writable only when it already exists. -/
def redirPrecheck (env : Env) (words : List String) (max inputR outputR : Nat) :
    Option Event :=
  let afterIn :=
    if outputR > 0 then
      match env.fileStat (words.getD (max - 1) "") with
      | some m =>
        if !m.writable then some (.errPermissionDenied (words.getD (max - 1) ""))
        else none
      | none => none
    else none
  if inputR > 0 then
    match env.fileStat (words.getD 1 "") with
    | none => some (.errFileNotFound (words.getD 1 ""))
    | some m =>
      if !m.readable then some (.errPermissionDenied (words.getD 1 ""))
      else afterIn
  else afterIn

/-- The output-file open flags of `in_out_redirection` (lines 713-729)
and of the last stage of `pipes` (lines 1009-1028): `O_CREAT | O_WRONLY`
for a single `>`, `O_CREAT | O_WRONLY | O_APPEND` for `>>`.  Neither
mode includes `O_TRUNC`. -/
def redirOutFlags (outputR : Nat) : List OFlag :=
  if outputR = 1 then [.creat, .wronly]
  else if outputR = 2 then [.creat, .wronly, .append]
  else []

/-- The output file action: target name `words[max - 1]` with the flags
of `redirOutFlags`, or nothing when no `>` was present. -/
def outSpec (words : List String) (max outputR : Nat) :
    Option (String × List OFlag) :=
  if outputR = 0 then none
  else some (words.getD (max - 1) "", redirOutFlags outputR)

/-- The argv slice `in_out_redirection` builds (lines 732-777): without
`<`, the words before the first `>`; with `<` only, the words from index
2 on; with both, the words from index 2 up to the first `>`. -/
def inOutArgs (words : List String) (inputR outputR : Nat) : List String :=
  if inputR = 0 then words.takeWhile (fun w => w ≠ ">")
  else if outputR = 0 then words.drop 2
  else (words.drop 2).takeWhile (fun w => w ≠ ">")

/-- `in_out_redirection`: run the prechecks, then spawn one child with
stdin bound to `words[1]` read-only when `<` is present and stdout bound
to the output file with the `redirOutFlags` mode when `>` is present. -/
def in_out_redirection (env : Env) (max : Nat) (program : String)
    (inputR outputR : Nat) (words : List String) : List Event :=
  match redirPrecheck env words max inputR outputR with
  | some e => [e]
  | none =>
    [.spawnedRedirected program (inOutArgs words inputR outputR)
      (if inputR > 0 then some (words.getD 1 "") else none)
      (outSpec words max outputR)]

/-! ## Pipeline construction (`get_programs`, `get_arguments`, `pipes`) -/

/-- The scan loop of `get_programs` (lines 806-872), fuel-indexed with one
unit per word index.  It walks the words from index `i` (2 when `<` is
present, else 0), stops at `>` or the end, treats the word after each `|`
as a stage head, rejects the builtin names `pwd`, `cd`, `history`, `!` as
stage heads, resolves every other head through the search path (a head
containing `/` is taken verbatim without a check), and errors with the
not-found diagnostic when the search fails. -/
def gpLoop (env : Env) (words : List String) (max : Nat) :
    Nat → Nat → Bool → List String → Except Event (List String)
  | 0, _, _, acc => .ok acc.reverse
  | fuel + 1, i, isNew, acc =>
    if i < max then
      let w := words.getD i ""
      if w = ">" then .ok acc.reverse
      else if w = "|" then gpLoop env words max fuel (i + 1) true acc
      else if isNew then
        if w = "pwd" ∨ w = "cd" ∨ w = "history" ∨ w = "!" then
          .error (.errBuiltinRedir w)
        else
          let prog? :=
            if containsChar w '/' then some w
            else (env.path.find? (fun d => env.isExec (d ++ "/" ++ w))).map
              (fun d => d ++ "/" ++ w)
          match prog? with
          | none => .error (.errCommandNotFound w)
          | some p => gpLoop env words max fuel (i + 1) false (p :: acc)
      else gpLoop env words max fuel (i + 1) false acc
    else .ok acc.reverse

/-- `get_programs`: the resolved executable path of every pipeline stage,
in order, or the first diagnostic. -/
def get_programs (env : Env) (max : Nat) (words : List String) (inputR : Nat) :
    Except Event (List String) :=
  gpLoop env words max max (if inputR > 0 then 2 else 0) true []

/-- The stage-head tokens of a pipeline line: the same traversal as
`gpLoop`, collecting the word after each `|` (and the starting word)
without resolving anything. -/
def gpHeads (words : List String) (max : Nat) : Nat → Nat → Bool → List String
  | 0, _, _ => []
  | fuel + 1, i, isNew =>
    if i < max then
      let w := words.getD i ""
      if w = ">" then []
      else if w = "|" then gpHeads words max fuel (i + 1) true
      else if isNew then w :: gpHeads words max fuel (i + 1) false
      else gpHeads words max fuel (i + 1) false
    else []

def stageHeads (words : List String) (max inputR : Nat) : List String :=
  gpHeads words max max (if inputR > 0 then 2 else 0) true

/-- The index-skipping loop of `get_arguments` (lines 883-889): advance
past `k` pipe tokens, one fuel unit per word. -/
def gaSkip (words : List String) : Nat → Nat → Nat → Nat
  | 0, i, _ => i
  | fuel + 1, i, k =>
    if k = 0 then i
    else if words.getD i "" = "|" then gaSkip words fuel (i + 1) (k - 1)
    else gaSkip words fuel (i + 1) k

/-- The collection loop of `get_arguments` (lines 893-904): words from
`i` up to the next `|` or `>` or the end. -/
def gaCollect (words : List String) (max : Nat) : Nat → Nat → List String
  | 0, _ => []
  | fuel + 1, i =>
    if i < max then
      let w := words.getD i ""
      if w = "|" ∨ w = ">" then []
      else w :: gaCollect words max fuel (i + 1)
    else []

/-- `get_arguments`: the argv of pipeline stage `k`. -/
def get_arguments (max : Nat) (words : List String) (inputR k : Nat) :
    List String :=
  let start := gaSkip words max (if inputR > 0 then 2 else 0) k
  gaCollect words max max start

/-- `pipes` (lines 911-1088): after the same stat prechecks as
`in_out_redirection`, spawn `pipe_count + 1` stages.  Stage 0 reads the
input file (with `<`) or the inherited stdin and writes pipe 0; middle
stage `k` reads pipe `k - 1` and writes pipe `k`; the last stage reads
pipe `pc - 1` and writes the output file per `redirOutFlags` (with `>`)
or the inherited stdout. -/
def pipes (env : Env) (max : Nat) (programs : List String)
    (inputR outputR pc : Nat) (words : List String) : List Event :=
  match redirPrecheck env words max inputR outputR with
  | some e => [e]
  | none =>
    (List.range (pc + 1)).map fun k =>
      .spawnedStage (programs.getD k "") (get_arguments max words inputR k)
        (if k = 0 then
          (if inputR > 0 then .fromFile (words.getD 1 "") else .inherited)
         else .fromPipe (k - 1))
        (if k = pc then
          (match outSpec words max outputR with
           | some (f, fl) => .toFile f fl
           | none => .inherited)
         else .toPipe k)

/-! ## `execute_command` (lines 140-336) -/

/-- The resolved program token: `words[0]`, replaced by `words[2]` when
`words[0]` is `<` (lines 222-224). -/
def progOf (words : List String) : String :=
  if words.getD 0 "" = "<" then words.getD 2 "" else words.getD 0 ""

/-- The tail of `execute_command` from `store_command` (line 219) on:
`<`-repositioning, the `exit` dispatch, glob expansion, the `pwd`, `cd`
and `history` builtins (each refusing redirection or pipe tokens), and
finally path resolution plus direct, redirected, or piped execution.
`count` is `number_arguments`, frozen before the glob rewrite exactly as
in the C. -/
def execStoreEvents (env : Env) (hist : Option (List String)) (words : List String)
    (inputR outputR pc : Nat) : List Event :=
  let hist1 := store_command hist words
  let count := words.length
  let program := progOf words
  if program = "exit" then do_exit words
  else
    let words2 :=
      match check_glob env.glob words with
      | none => words
      | some line => tokenizeStr line
    if program = "pwd" then
      if inputR ≠ 0 ∨ outputR ≠ 0 ∨ pc ≠ 0 then [.errBuiltinRedir program]
      else if count = 1 then [.ranPwd]
      else [.errTooManyArgs "pwd"]
    else if program = "cd" then
      if inputR ≠ 0 ∨ outputR ≠ 0 ∨ pc ≠ 0 then [.errBuiltinRedir program]
      else if count ≤ 2 then [.ranCd (words2.get? 1)]
      else [.errTooManyArgs "cd"]
    else if program = "history" then
      if inputR ≠ 0 ∨ outputR ≠ 0 ∨ pc ≠ 0 then [.errBuiltinRedir program]
      else
        match history_check_arg count words2 with
        | .error e => [e]
        | .ok n => [.printedHistory (print_history (hist1.getD []) n)]
    else
      let resolved := resolveProgram env program
      if env.isExec resolved then
        if pc = 0 then
          if inputR = 0 ∧ outputR = 0 then
            [.spawnedDirect resolved words2]
          else in_out_redirection env count resolved inputR outputR words2
        else
          match get_programs env count words2 inputR with
          | .error e => [e]
          | .ok programs =>
            pipes env count programs inputR outputR pc words2
      else [.errCommandNotFound resolved]

/-- The tail of `execute_command`: `store_command` always runs first
(line 219), so the history side is unconditionally the appended log. -/
def execStore (env : Env) (hist : Option (List String)) (words : List String)
    (inputR outputR pc : Nat) : List Event × Option (List String) :=
  (execStoreEvents env hist words inputR outputR pc, store_command hist words)

/-- The `!` branch of `execute_command` (lines 171-216): refuse any
redirection or pipe token, validate the argument, load the referenced
line (echoing it), re-tokenize it, re-run the redirection check, and
continue at `store_command` with the substituted words and counters. -/
def execBang (env : Env) (hist : Option (List String)) (words : List String)
    (inputR outputR pc : Nat) : List Event × Option (List String) :=
  if inputR ≠ 0 ∨ outputR ≠ 0 ∨ pc ≠ 0 then ([.errBuiltinRedir "!"], hist)
  else
    match exclamation_check_arg words.length words with
    | .error e => ([e], hist)
    | .ok n =>
      match load_command hist n with
      | .error e => ([e], hist)
      | .ok line =>
        let words1 := tokenizeStr line
        match redirection_check_arg words1 with
        | .error e => ([.echoed line, e], hist)
        | .ok (i1, o1, p1) =>
          let (evs, hist1) := execStore env hist words1 i1 o1 p1
          (.echoed line :: evs, hist1)

/-- `execute_command`: empty token lists are a no-op (lines 153-156), the
redirection check runs first (lines 161-167), then either the `!` branch
or the common tail starting at `store_command`. -/
def execute_command (env : Env) (hist : Option (List String))
    (words : List String) : List Event × Option (List String) :=
  if words.isEmpty then ([], hist)
  else
    match redirection_check_arg words with
    | .error e => ([e], hist)
    | .ok (inputR, outputR, pc) =>
      if words.getD 0 "" = "!" then execBang env hist words inputR outputR pc
      else execStore env hist words inputR outputR pc

/-! ## POSIX open/write semantics for the output redirection modes -/

/-- The contents of a file after opening it with `flags` and writing
`data` at the resulting position, following POSIX `open`/`write`: the
file is created empty when absent (with `O_CREAT`), an existing file is
cleared only under `O_TRUNC`, writes go to the end under `O_APPEND` and
otherwise overwrite from offset 0, leaving any longer existing tail in
place.  `none` when the open fails. -/
def openWrite (existing : Option String) (flags : List OFlag) (data : String) :
    Option String :=
  if flags.contains .wronly then
    match (match existing with
           | some c => if flags.contains .trunc then some "" else some c
           | none => if flags.contains .creat then some "" else none) with
    | none => none
    | some c =>
      if flags.contains .append then some (c ++ data)
      else some (data ++ c.drop data.length)
  else none

/-! ## Positional grammar conditions (spec §4.2) -/

/-- The spec's positional conditions for one token of a sequence of
length `count`: `<` only at position 0 with `count ≥ 3`; a single `>`
only at `count - 2`, the append pair `> >` only at `count - 3` and
`count - 2`, each with `count ≥ 3` (so never at position 0); `|` only
strictly inside, never adjacent to another `|`. -/
def validTokenCond (words : List String) (count i : Nat) : Prop :=
  (words.getD i "" = "<" → i = 0 ∧ 3 ≤ count) ∧
  (words.getD i "" = ">" → 3 ≤ count ∧ i ≠ 0 ∧
    (i + 2 = count ∨ (i + 3 = count ∧ words.getD (i + 1) "" = ">"))) ∧
  (words.getD i "" = "|" → 0 < i ∧ i + 1 < count ∧ words.getD (i - 1) "" ≠ "|")

instance validTokenCondDecidable (words : List String) (count i : Nat) :
    Decidable (validTokenCond words count i) := by
  unfold validTokenCond
  infer_instance

/-! ## Concrete environments used to evaluate the model -/

/-- A bare environment: empty path, no executables, no files, no glob
matches. -/
def envNone : Env := ⟨[], fun _ => false, fun _ => [], fun _ => none⟩

/-- An environment where nothing on the search path exists but a file
named `cwdprog` (relative to the working directory) is executable. -/
def envCwdOnly : Env := ⟨["/bin"], fun s => s == "cwdprog", fun _ => [], fun _ => none⟩

/-- An environment with the executables `/bin/a` and `/bin/b`. -/
def envTwoProgs : Env :=
  ⟨["/bin"], fun s => s == "/bin/a" || s == "/bin/b", fun _ => [], fun _ => none⟩

/-- An environment with `/bin/ls` executable where the pattern `*.c`
matches exactly `a.c`, and `nomatch*.xyz` matches nothing. -/
def envGlobC : Env :=
  ⟨["/bin"], fun s => s == "/bin/ls",
    fun p => if p == "*.c" then ["a.c"] else [], fun _ => none⟩

/-! ## Tokenizer correctness lemmas -/

theorem dropWhile_head_false {α : Type} (p : α → Bool) :
    ∀ (l : List α) (c : α) (cs : List α), l.dropWhile p = c :: cs → p c = false := by
  intro l
  induction l with
  | nil => intro c cs h; simp [List.dropWhile] at h
  | cons a t ih =>
    intro c cs h
    by_cases hp : p a
    · rw [List.dropWhile_cons_of_pos hp] at h
      exact ih c cs h
    · rw [List.dropWhile_cons_of_neg hp] at h
      injection h with h1 _
      subst h1
      simpa using hp

theorem drop_takeWhile_length {α : Type} (p : α → Bool) :
    ∀ l : List α, l.drop (l.takeWhile p).length = l.dropWhile p := by
  intro l
  induction l with
  | nil => rfl
  | cons a t ih =>
    by_cases hp : p a
    · simp [List.takeWhile_cons_of_pos hp, List.dropWhile_cons_of_pos hp, ih]
    · simp [List.takeWhile_cons_of_neg hp, List.dropWhile_cons_of_neg hp]

theorem sepRuns_dropWhile (sep : Char → Bool) :
    ∀ s : List Char, sepRuns sep s = sepRuns sep (s.dropWhile sep) := by
  intro s
  induction s with
  | nil => rfl
  | cons a t ih =>
    by_cases hp : sep a
    · rw [List.dropWhile_cons_of_pos hp, ← ih]
      simp [sepRuns, hp]
    · rw [List.dropWhile_cons_of_neg hp]

theorem sepRuns_cons_of_neg (sep : Char → Bool) :
    ∀ (cs : List Char) (c : Char), sep c = false →
      sepRuns sep (c :: cs) =
        ((c :: cs).takeWhile fun x => !sep x) ::
          sepRuns sep ((c :: cs).dropWhile fun x => !sep x) := by
  intro cs
  induction cs with
  | nil =>
    intro c hc
    simp [sepRuns, List.takeWhile_cons, List.dropWhile_cons, hc]
  | cons d cs2 ih =>
    intro c hc
    by_cases hd : sep d
    · have htake : ((c :: d :: cs2).takeWhile fun x => !sep x) = [c] := by
        simp [List.takeWhile_cons, hc, hd]
      have hdrop : ((c :: d :: cs2).dropWhile fun x => !sep x) = d :: cs2 := by
        simp [List.dropWhile_cons, hc, hd]
      rw [htake, hdrop]
      show (if sep c then sepRuns sep (d :: cs2)
            else match sepRuns sep (d :: cs2), (d :: cs2).head? with
              | t :: ts, some e => if sep e then [c] :: t :: ts else (c :: t) :: ts
              | _, _ => [[c]]) = [c] :: sepRuns sep (d :: cs2)
      rw [if_neg (by simp [hc])]
      cases hsr : sepRuns sep (d :: cs2) with
      | nil => simp
      | cons t ts => simp [hd]
    · have hrec := ih d (by simpa using hd)
      have htake : ((c :: d :: cs2).takeWhile fun x => !sep x) =
          c :: ((d :: cs2).takeWhile fun x => !sep x) := by
        simp [List.takeWhile_cons, hc]
      have hdrop : ((c :: d :: cs2).dropWhile fun x => !sep x) =
          ((d :: cs2).dropWhile fun x => !sep x) := by
        simp [List.dropWhile_cons, hc]
      rw [htake, hdrop]
      show (if sep c then sepRuns sep (d :: cs2)
            else match sepRuns sep (d :: cs2), (d :: cs2).head? with
              | t :: ts, some e => if sep e then [c] :: t :: ts else (c :: t) :: ts
              | _, _ => [[c]]) = _
      rw [if_neg (by simp [hc]), hrec]
      simp [hd]

theorem splitSpecials_cons_of_neg (spec : Char → Bool) :
    ∀ (cs : List Char) (c : Char), spec c = false →
      splitSpecials spec (c :: cs) =
        ((c :: cs).takeWhile fun x => !spec x) ::
          splitSpecials spec ((c :: cs).dropWhile fun x => !spec x) := by
  intro cs
  induction cs with
  | nil =>
    intro c hc
    simp [splitSpecials, List.takeWhile_cons, List.dropWhile_cons, hc]
  | cons d cs2 ih =>
    intro c hc
    by_cases hd : spec d
    · have htake : ((c :: d :: cs2).takeWhile fun x => !spec x) = [c] := by
        simp [List.takeWhile_cons, hc, hd]
      have hdrop : ((c :: d :: cs2).dropWhile fun x => !spec x) = d :: cs2 := by
        simp [List.dropWhile_cons, hc, hd]
      rw [htake, hdrop]
      show (if spec c then [c] :: splitSpecials spec (d :: cs2)
            else match splitSpecials spec (d :: cs2), (d :: cs2).head? with
              | t :: ts, some e => if spec e then [c] :: t :: ts else (c :: t) :: ts
              | _, _ => [[c]]) = [c] :: splitSpecials spec (d :: cs2)
      rw [if_neg (by simp [hc])]
      cases hsr : splitSpecials spec (d :: cs2) with
      | nil => simp
      | cons t ts => simp [hd]
    · have hrec := ih d (by simpa using hd)
      have htake : ((c :: d :: cs2).takeWhile fun x => !spec x) =
          c :: ((d :: cs2).takeWhile fun x => !spec x) := by
        simp [List.takeWhile_cons, hc]
      have hdrop : ((c :: d :: cs2).dropWhile fun x => !spec x) =
          ((d :: cs2).dropWhile fun x => !spec x) := by
        simp [List.dropWhile_cons, hc]
      rw [htake, hdrop]
      show (if spec c then [c] :: splitSpecials spec (d :: cs2)
            else match splitSpecials spec (d :: cs2), (d :: cs2).head? with
              | t :: ts, some e => if spec e then [c] :: t :: ts else (c :: t) :: ts
              | _, _ => [[c]]) = _
      rw [if_neg (by simp [hc]), hrec]
      simp [hd]

theorem takeWhile_length_le {α : Type} (p : α → Bool) :
    ∀ l : List α, (l.takeWhile p).length ≤ l.length := by
  intro l
  induction l with
  | nil => simp
  | cons a t ih =>
    by_cases hp : p a
    · rw [List.takeWhile_cons_of_pos hp]
      simpa using ih
    · rw [List.takeWhile_cons_of_neg hp]
      simp

theorem takeWhile_eq_of_length_eq {α : Type} (p : α → Bool) :
    ∀ l : List α, (l.takeWhile p).length = l.length → l.takeWhile p = l := by
  intro l
  induction l with
  | nil => simp
  | cons a t ih =>
    intro h
    by_cases hp : p a
    · rw [List.takeWhile_cons_of_pos hp] at h ⊢
      simp only [List.length_cons, Nat.add_right_cancel_iff] at h
      rw [ih h]
    · rw [List.takeWhile_cons_of_neg hp] at h
      simp at h

theorem take_takeWhile_length {α : Type} (p : α → Bool) :
    ∀ l : List α, l.take (l.takeWhile p).length = l.takeWhile p := by
  intro l
  induction l with
  | nil => rfl
  | cons a t ih =>
    by_cases hp : p a
    · simp [List.takeWhile_cons_of_pos hp, ih]
    · simp [List.takeWhile_cons_of_neg hp]

theorem dropWhile_length_le {α : Type} (p : α → Bool) :
    ∀ l : List α, (l.dropWhile p).length ≤ l.length := by
  intro l
  induction l with
  | nil => simp
  | cons a t ih =>
    by_cases hp : p a
    · rw [List.dropWhile_cons_of_pos hp]
      exact Nat.le_trans ih (Nat.le_succ _)
    · rw [List.dropWhile_cons_of_neg hp]

/-- Splitting off a leading separator-free block with a clean boundary:
the spec tokenizer distributes over it. -/
theorem specTokenize_append_run (sep spec : Char → Bool) (r2 rest : List Char)
    (hall : ∀ x ∈ r2, sep x = false)
    (hrest : ∀ hd tl, rest = hd :: tl → sep hd = true) :
    specTokenize sep spec (r2 ++ rest) =
      splitSpecials spec r2 ++ specTokenize sep spec rest := by
  cases r2 with
  | nil => simp [splitSpecials]
  | cons c r2t =>
    have hc : sep c = false := hall c (by simp)
    have hallb : ∀ x ∈ c :: r2t, (fun y => !sep y) x = true := by
      intro x hx
      simp [hall x hx]
    have htrest : rest.takeWhile (fun y => !sep y) = [] := by
      cases hr : rest with
      | nil => rfl
      | cons hd tl =>
        have := hrest hd tl hr
        simp [List.takeWhile_cons, this]
    have hdrest : rest.dropWhile (fun y => !sep y) = rest := by
      cases hr : rest with
      | nil => rfl
      | cons hd tl =>
        have := hrest hd tl hr
        simp [List.dropWhile_cons, this]
    have htake : ((c :: r2t) ++ rest).takeWhile (fun y => !sep y) = c :: r2t := by
      rw [List.takeWhile_append_of_pos hallb, htrest, List.append_nil]
    have hdrop : ((c :: r2t) ++ rest).dropWhile (fun y => !sep y) = rest := by
      rw [List.dropWhile_append_of_pos hallb, hdrest]
    show specTokenize sep spec (c :: (r2t ++ rest)) = _
    unfold specTokenize
    rw [sepRuns_cons_of_neg sep (r2t ++ rest) c hc]
    have h1 : (c :: (r2t ++ rest)) = (c :: r2t) ++ rest := by simp
    rw [h1, htake, hdrop, List.flatMap_cons]

/-- The C tokenizer agrees with the spec tokenizer whenever it is run
with enough fuel (the loop consumes at least one character per
iteration, so `s.length` is enough). -/
theorem tokenizeF_eq_specTokenize (sep spec : Char → Bool) :
    ∀ (fuel : Nat) (s : List Char), s.length ≤ fuel →
      tokenizeF sep spec fuel s = specTokenize sep spec s := by
  intro fuel
  induction fuel with
  | zero =>
    intro s hs
    have : s = [] := List.eq_nil_of_length_eq_zero (Nat.le_zero.mp hs)
    subst this
    rfl
  | succ fuel ih =>
    intro s hs
    have hspec1 : specTokenize sep spec s = specTokenize sep spec (s.dropWhile sep) := by
      unfold specTokenize
      rw [sepRuns_dropWhile]
    rw [hspec1]
    have hlen1 : (s.dropWhile sep).length ≤ fuel + 1 :=
      Nat.le_trans (dropWhile_length_le sep s) hs
    cases hs1 : s.dropWhile sep with
    | nil =>
      simp only [tokenizeF, hs1]
      rfl
    | cons c cs =>
      rw [hs1] at hlen1
      have hstep : tokenizeF sep spec (fuel + 1) s =
          (c :: cs).take (tokLen sep spec (c :: cs)) ::
            tokenizeF sep spec fuel ((c :: cs).drop (tokLen sep spec (c :: cs))) := by
        simp only [tokenizeF, hs1]
      rw [hstep]
      have hcsep : sep c = false := dropWhile_head_false sep s c cs hs1
      -- the leading separator-free run and the rest of the line
      have hrestsep : ∀ hd tl, (c :: cs).dropWhile (fun y => !sep y) = hd :: tl →
          sep hd = true := by
        intro hd tl hh
        have := dropWhile_head_false (fun y => !sep y) (c :: cs) hd tl hh
        simpa using this
      have hallr : ∀ x ∈ (c :: cs).takeWhile (fun y => !sep y), sep x = false := by
        intro x hx
        have := List.mem_takeWhile_imp hx
        simpa using this
      -- the first maximal run and the remainder of the line
      have hrw : specTokenize sep spec (c :: cs) =
          splitSpecials spec ((c :: cs).takeWhile fun x => !sep x) ++
            specTokenize sep spec ((c :: cs).dropWhile fun x => !sep x) := by
        unfold specTokenize
        rw [sepRuns_cons_of_neg sep cs c hcsep, List.flatMap_cons]
      rw [hrw]
      have hrdef : ((c :: cs).takeWhile fun x => !sep x) =
          c :: cs.takeWhile (fun x => !sep x) := by
        simp [List.takeWhile_cons, hcsep]
      have hrestdef : ((c :: cs).dropWhile fun x => !sep x) =
          cs.dropWhile (fun x => !sep x) := by
        simp [List.dropWhile_cons, hcsep]
      by_cases hcspec : spec c = true
      · -- special head character: the token is exactly [c]
        have hlws0 : ((c :: cs).takeWhile fun x => !spec x).length = 0 := by
          simp [List.takeWhile_cons, hcspec]
        have hL : 1 ≤ ((c :: cs).takeWhile fun x => !sep x).length := by
          simp [List.takeWhile_cons, hcsep]
        have hn : tokLen sep spec (c :: cs) = 1 := by
          simp only [tokLen, hlws0]
          split_ifs <;> omega
        have htail : cs.length ≤ fuel := by
          simp only [List.length_cons] at hlen1
          omega
        have hsplitr : splitSpecials spec ((c :: cs).takeWhile fun x => !sep x) =
            [c] :: splitSpecials spec (cs.takeWhile fun x => !sep x) := by
          rw [hrdef]
          simp [splitSpecials, hcspec]
        have hcsdecomp : specTokenize sep spec cs =
            splitSpecials spec (cs.takeWhile fun x => !sep x) ++
              specTokenize sep spec (cs.dropWhile fun x => !sep x) := by
          conv_lhs => rw [← List.takeWhile_append_dropWhile (fun x => !sep x) cs]
          exact specTokenize_append_run sep spec _ _
            (fun x hx => by simpa using List.mem_takeWhile_imp hx)
            (fun hd tl hh => by
              simpa using dropWhile_head_false (fun x => !sep x) cs hd tl hh)
        rw [hn]
        show [c] :: tokenizeF sep spec fuel cs = _
        rw [ih cs htail, hsplitr, hrestdef, hcsdecomp, List.cons_append]
      · -- ordinary head character
        have hcspec2 : spec c = false := by
          simpa using hcspec
        have hallrunsep : ∀ x ∈ (c :: cs).takeWhile (fun y => !sep y),
            sep x = false := hallr
        by_cases hT : ((c :: cs).takeWhile fun x => !sep x).takeWhile
            (fun x => !spec x) = (c :: cs).takeWhile fun x => !sep x
        · -- the whole run is special-free: the token is the full run
          have hallq : ∀ x ∈ (c :: cs).takeWhile (fun y => !sep y),
              (fun y => !spec y) x = true := List.takeWhile_eq_self_iff.mp hT
          have hAeq : ((c :: cs).takeWhile fun x => !spec x) =
              ((c :: cs).takeWhile fun x => !sep x) ++
                (((c :: cs).dropWhile fun x => !sep x).takeWhile fun x => !spec x) := by
            conv_lhs =>
              rw [← List.takeWhile_append_dropWhile (fun x => !sep x) (c :: cs)]
            rw [List.takeWhile_append_of_pos hallq]
          have hL : 1 ≤ ((c :: cs).takeWhile fun x => !sep x).length := by
            simp [List.takeWhile_cons, hcsep]
          have hn : tokLen sep spec (c :: cs) =
              ((c :: cs).takeWhile fun x => !sep x).length := by
            have hlen : ((c :: cs).takeWhile fun x => !spec x).length =
                ((c :: cs).takeWhile fun x => !sep x).length +
                  (((c :: cs).dropWhile fun x => !sep x).takeWhile
                    fun x => !spec x).length := by
              rw [hAeq, List.length_append]
            simp only [tokLen, hlen]
            split_ifs <;> omega
          rw [hn, take_takeWhile_length, drop_takeWhile_length]
          have hlensum : (c :: cs).length =
              ((c :: cs).takeWhile fun x => !sep x).length +
                ((c :: cs).dropWhile fun x => !sep x).length := by
            conv_lhs =>
              rw [← List.takeWhile_append_dropWhile (fun x => !sep x) (c :: cs)]
            rw [List.length_append]
          have htail : ((c :: cs).dropWhile fun x => !sep x).length ≤ fuel := by
            omega
          rw [ih _ htail]
          have hdwnil : ((c :: cs).takeWhile fun x => !sep x).dropWhile
              (fun x => !spec x) = [] := by
            have hlen2 := congrArg List.length
              (List.takeWhile_append_dropWhile (fun x => !spec x)
                ((c :: cs).takeWhile fun x => !sep x))
            rw [List.length_append, hT] at hlen2
            have : (((c :: cs).takeWhile fun x => !sep x).dropWhile
                (fun x => !spec x)).length = 0 := by omega
            exact List.eq_nil_of_length_eq_zero this
          have hsplitr : splitSpecials spec ((c :: cs).takeWhile fun x => !sep x) =
              [(c :: cs).takeWhile fun x => !sep x] := by
            rw [hrdef]
            rw [splitSpecials_cons_of_neg spec _ c hcspec2, ← hrdef, hT, hdwnil]
            rfl
          rw [hsplitr]
          rfl
        · -- the run contains a special character: the token is its
          -- special-free prefix
          have htle : (((c :: cs).takeWhile fun x => !sep x).takeWhile
              (fun x => !spec x)).length ≤
              ((c :: cs).takeWhile fun x => !sep x).length :=
            takeWhile_length_le _ _
          have htlt : (((c :: cs).takeWhile fun x => !sep x).takeWhile
              (fun x => !spec x)).length <
              ((c :: cs).takeWhile fun x => !sep x).length := by
            rcases Nat.lt_or_ge (((c :: cs).takeWhile fun x => !sep x).takeWhile
              (fun x => !spec x)).length
              ((c :: cs).takeWhile fun x => !sep x).length with h | h
            · exact h
            · exact absurd (takeWhile_eq_of_length_eq _ _ (Nat.le_antisymm htle h)) hT
          have hA : ((c :: cs).takeWhile fun x => !spec x) =
              ((c :: cs).takeWhile fun x => !sep x).takeWhile (fun x => !spec x) := by
            conv_lhs =>
              rw [← List.takeWhile_append_dropWhile (fun x => !sep x) (c :: cs)]
            rw [List.takeWhile_append]
            rw [if_neg (by omega)]
          have htlen1 : 1 ≤ (((c :: cs).takeWhile fun x => !sep x).takeWhile
              (fun x => !spec x)).length := by
            rw [hrdef]
            simp [List.takeWhile_cons, hcspec2]
          have hn : tokLen sep spec (c :: cs) =
              (((c :: cs).takeWhile fun x => !sep x).takeWhile
                (fun x => !spec x)).length := by
            simp only [tokLen, hA]
            split_ifs <;> omega
          have htake : (c :: cs).take (tokLen sep spec (c :: cs)) =
              ((c :: cs).takeWhile fun x => !sep x).takeWhile (fun x => !spec x) := by
            rw [hn, ← hA]
            exact take_takeWhile_length (fun x => !spec x) (c :: cs)
          have hdrop : (c :: cs).drop (tokLen sep spec (c :: cs)) =
              (((c :: cs).takeWhile fun x => !sep x).dropWhile fun x => !spec x) ++
                ((c :: cs).dropWhile fun x => !sep x) := by
            rw [hn]
            have h1 : (c :: cs).drop
                (((c :: cs).takeWhile fun x => !spec x).length) =
                (c :: cs).dropWhile fun x => !spec x :=
              drop_takeWhile_length (fun x => !spec x) (c :: cs)
            rw [hA] at h1
            rw [h1]
            conv_lhs =>
              rw [← List.takeWhile_append_dropWhile (fun x => !sep x) (c :: cs)]
            rw [List.dropWhile_append]
            have hne : (((c :: cs).takeWhile fun x => !sep x).dropWhile
                (fun x => !spec x)).isEmpty = false := by
              have hlen2 := congrArg List.length
                (List.takeWhile_append_dropWhile (fun x => !spec x)
                  ((c :: cs).takeWhile fun x => !sep x))
              rw [List.length_append] at hlen2
              rcases hdw : ((c :: cs).takeWhile fun x => !sep x).dropWhile
                (fun x => !spec x) with _ | ⟨y, ys⟩
              · rw [hdw] at hlen2
                simp at hlen2
                omega
              · rfl
            rw [if_neg (by simp [hne])]
          rw [htake, hdrop]
          have hlensum : (c :: cs).length =
              ((c :: cs).takeWhile fun x => !sep x).length +
                ((c :: cs).dropWhile fun x => !sep x).length := by
            conv_lhs =>
              rw [← List.takeWhile_append_dropWhile (fun x => !sep x) (c :: cs)]
            rw [List.length_append]
          have hlensum2 : ((c :: cs).takeWhile fun x => !sep x).length =
              (((c :: cs).takeWhile fun x => !sep x).takeWhile
                (fun x => !spec x)).length +
              (((c :: cs).takeWhile fun x => !sep x).dropWhile
                (fun x => !spec x)).length := by
            conv_lhs =>
              rw [← List.takeWhile_append_dropWhile (fun x => !spec x)
                ((c :: cs).takeWhile fun x => !sep x)]
            rw [List.length_append]
          have htail : ((((c :: cs).takeWhile fun x => !sep x).dropWhile
              fun x => !spec x) ++
              ((c :: cs).dropWhile fun x => !sep x)).length ≤ fuel := by
            rw [List.length_append]
            omega
          rw [ih _ htail]
          have hbound : specTokenize sep spec
              ((((c :: cs).takeWhile fun x => !sep x).dropWhile fun x => !spec x) ++
                ((c :: cs).dropWhile fun x => !sep x)) =
              splitSpecials spec (((c :: cs).takeWhile fun x => !sep x).dropWhile
                fun x => !spec x) ++
                specTokenize sep spec ((c :: cs).dropWhile fun x => !sep x) := by
            apply specTokenize_append_run
            · intro x hx
              have hx2 : x ∈ (c :: cs).takeWhile fun y => !sep y := by
                have hsub : (((c :: cs).takeWhile fun y => !sep y).dropWhile
                    fun y => !spec y).Sublist ((c :: cs).takeWhile fun y => !sep y) :=
                  List.dropWhile_sublist _
                exact hsub.subset hx
              exact hallr x hx2
            · intro hd tl hh
              rw [hrestdef] at hh
              simpa using dropWhile_head_false (fun y => !sep y) cs hd tl hh
          rw [hbound]
          have hsplitr : splitSpecials spec ((c :: cs).takeWhile fun x => !sep x) =
              (((c :: cs).takeWhile fun x => !sep x).takeWhile fun x => !spec x) ::
                splitSpecials spec (((c :: cs).takeWhile fun x => !sep x).dropWhile
                  fun x => !spec x) := by
            rw [hrdef]
            rw [splitSpecials_cons_of_neg spec _ c hcspec2, ← hrdef]
          rw [hsplitr]
          rfl

theorem getD_last {α : Type} (d : α) :
    ∀ (l : List α) (x : α), l.getLast? = some x → l.getD (l.length - 1) d = x := by
  intro l
  induction l with
  | nil => intro x h; simp at h
  | cons a t ih =>
    intro x h
    cases t with
    | nil =>
      simp at h
      subst h
      rfl
    | cons b t2 =>
      rw [List.getLast?_cons_cons] at h
      have h2 := ih x h
      have hlen : (a :: b :: t2).length - 1 = ((b :: t2).length - 1) + 1 := by
        simp
      rw [hlen, List.getD_cons_succ]
      exact h2

/-! ## Helper lemmas about the validator, glob scan, and path search -/

theorem getD_mem {α : Type} (l : List α) (d : α) {i : Nat} (h : i < l.length) :
    l.getD i d ∈ l := by
  have h1 : l.getD i d = l[i] := by
    simp [List.getD, List.getElem?_eq_getElem h]
  rw [h1]
  exact l.getElem_mem h

theorem rcLoop_neutral (words : List String) (count : Nat) :
    ∀ (fuel i : Nat) (st : RCSt),
      (∀ j, i ≤ j → j < count →
        words.getD j "" ≠ "<" ∧ words.getD j "" ≠ ">" ∧ words.getD j "" ≠ "|") →
      rcLoop words count fuel i st = st := by
  intro fuel
  induction fuel with
  | zero => intro i st _; rfl
  | succ fuel ih =>
    intro i st h
    by_cases hi : i < count
    · obtain ⟨h1, h2, h3⟩ := h i (Nat.le_refl i) hi
      simp only [rcLoop]
      rw [if_pos hi, if_neg h1, if_neg h2, if_neg h3]
      exact ih (i + 1) st fun j hj1 hj2 => h j (by omega) hj2
    · simp only [rcLoop]
      rw [if_neg hi]

/-- A line with no `<`, `>`, `|` token passes the redirection check with
all counters zero. -/
theorem redirection_check_no_specials (words : List String)
    (h : ∀ w ∈ words, w ≠ "<" ∧ w ≠ ">" ∧ w ≠ "|") :
    redirection_check_arg words = .ok (0, 0, 0) := by
  unfold redirection_check_arg
  rw [rcLoop_neutral words words.length words.length 0 RCSt.init ?_]
  · rfl
  · intro j _ hj2
    exact h (words.getD j "") (getD_mem words "" hj2)

/-- A token list with no metacharacter anywhere is left alone by
`check_glob`. -/
theorem check_glob_no_meta (g : String → List String) (words : List String)
    (h : ∀ w ∈ words, hasMeta w = false) : check_glob g words = none := by
  have hfl : globIndices words = [] := by
    unfold globIndices
    rw [List.filter_eq_nil_iff]
    intro i hi
    have hi2 : i < words.length := List.mem_range.mp hi
    have h3 := h (words.getD i "") (getD_mem words "" hi2)
    simp only [List.getD, List.get?_eq_getElem?] at h3
    simp [h3]
  unfold check_glob
  rw [hfl]
  rfl

theorem find?_boundary {α : Type} (p : α → Bool) :
    ∀ (pre : List α) (d : α) (post : List α),
      (∀ x ∈ pre, p x = false) → p d = true →
      (pre ++ d :: post).find? p = some d := by
  intro pre
  induction pre with
  | nil =>
    intro d post _ hd
    simpa using List.find?_cons_of_pos _ hd
  | cons a t ih =>
    intro d post hpre hd
    have ha : p a = false := hpre a (by simp)
    rw [List.cons_append, List.find?_cons_of_neg _ (by simp [ha])]
    exact ih d post (fun x hx => hpre x (by simp [hx])) hd

/-- A digit-only token is none of the grammar tokens and holds no
metacharacter. -/
theorem allDigits_plain (s : String) (h : allDigits s = true) :
    s ≠ "<" ∧ s ≠ ">" ∧ s ≠ "|" ∧ s ≠ "!" ∧ hasMeta s = false := by
  refine ⟨?_, ?_, ?_, ?_, ?_⟩
  · intro he; subst he; simp [allDigits] at h
  · intro he; subst he; simp [allDigits] at h
  · intro he; subst he; simp [allDigits] at h
  · intro he; subst he; simp [allDigits] at h
  · rcases hm : hasMeta s with _ | _
    · rfl
    · exfalso
      unfold hasMeta at hm
      obtain ⟨c, hc, hmc⟩ := List.any_eq_true.mp hm
      have hd : c.isDigit = true := List.all_eq_true.mp h c hc
      have hcs : ((c = '*' ∨ c = '?') ∨ c = '[') ∨ c = '~' := by
        simpa [isMeta] using hmc
      rcases hcs with ((h | h) | h) | h <;>
        (subst h; simp [Char.isDigit] at hd)

/-! ## Claim theorems -/

/-- C7: for every input line, `tokenize` splits it on separator
characters into maximal runs of non-separator characters, except that
each special character (`!`, `<`, `>`, `|`) always becomes its own
single-character token regardless of adjacent whitespace; in particular
`tokenize "a>>b"` yields the four tokens `a`, `>`, `>`, `b`, and
`tokenize "ls -l | wc"` yields `ls`, `-l`, `|`, `wc`. -/
theorem tokenize_splits_and_isolates_specials :
    (∀ s : List Char, tokenize s = specTokenize isSep isSpecial s) ∧
    tokenizeStr "a>>b" = ["a", ">", ">", "b"] ∧
    tokenizeStr "ls -l | wc" = ["ls", "-l", "|", "wc"] :=
  ⟨fun s => tokenizeF_eq_specTokenize isSep isSpecial s.length s (Nat.le_refl _),
   by decide, by decide⟩

/-- C1 (code bug): the single-`>` output mode opens the file with
`O_CREAT | O_WRONLY` but without `O_TRUNC`, in `in_out_redirection` and
in the last stage of `pipes` alike, so an existing file is NOT truncated
to empty: writing `hi` over existing contents `ABCDEF` leaves `hiCDEF`,
not `hi`.  The file is created when absent, and append mode (`> >`)
preserves existing contents and writes at the end, as claimed. -/
theorem outputRedirectTruncateModeBug :
    OFlag.trunc ∉ redirOutFlags 1 ∧
    openWrite (some "ABCDEF") (redirOutFlags 1) "hi" = some "hiCDEF" ∧
    some "hiCDEF" ≠ (some "hi" : Option String) ∧
    openWrite none (redirOutFlags 1) "hi" = some "hi" ∧
    openWrite (some "AB") (redirOutFlags 2) "hi" = some "ABhi" ∧
    execute_command envTwoProgs none ["a", ">", "out"] =
      ([.spawnedRedirected "/bin/a" ["a"] none (some ("out", [.creat, .wronly]))],
       some ["a > out"]) ∧
    execute_command envTwoProgs none ["a", ">", ">", "out"] =
      ([.spawnedRedirected "/bin/a" ["a"] none
          (some ("out", [.creat, .wronly, .append]))],
       some ["a > > out"]) ∧
    execute_command envTwoProgs none ["a", "|", "b", ">", "out"] =
      ([.spawnedStage "/bin/a" ["a"] .inherited (.toPipe 0),
        .spawnedStage "/bin/b" ["b"] (.fromPipe 0)
          (.toFile "out" [.creat, .wronly])],
       some ["a | b > out"]) := by
  refine ⟨by decide, by decide, by decide, by decide, by decide, rfl, rfl, rfl⟩

/-- C5 (code bug): `do_exit` prints the `numeric argument required`
diagnostic for a non-numeric argument but then still calls
`exit(exit_status)`, so the line `exit abc` reports an ArgumentError AND
terminates the interpreter, contradicting both the spec (an error aborts
only the current line) and the call-site comment (line 228: `do_exit`
will only return if there was an error). -/
theorem exitBadArgumentTerminatesBug :
    execute_command envNone none ["exit", "abc"] =
      ([.errNumericRequired "exit" "abc", .exited 0], some ["exit abc"]) ∧
    Event.errNumericRequired "exit" "abc" ∈
      (execute_command envNone none ["exit", "abc"]).1 ∧
    Event.exited 0 ∈ (execute_command envNone none ["exit", "abc"]).1 := by
  refine ⟨rfl, by decide, by decide⟩

/-- C4: `load_command` with reference -1 (bang `last`) returns the most
recently recorded entry and is an error when the log is absent; an
absolute reference within the recorded range returns that entry's text,
and one beyond the current maximum index fails with the
`invalid history reference` diagnostic. -/
theorem load_command_recall_semantics :
    (∀ n : Int, load_command none n = .error .errNoHistoryFile) ∧
    (∀ (data : List String) (x : String), data.getLast? = some x →
      load_command (some data) (-1) = .ok x) ∧
    (∀ (data : List String) (n : Nat), n < data.length →
      load_command (some data) ((n : Nat) : Int) = .ok (data.getD n "")) ∧
    (∀ (data : List String) (n : Nat), data.length ≤ n →
      load_command (some data) ((n : Nat) : Int) = .error .errInvalidHistoryRef) := by
  refine ⟨fun n => rfl, ?_, ?_, ?_⟩
  · intro data x h
    simp only [load_command, if_pos rfl]
    rw [getD_last "" data x h]
    simp
  · intro data n h
    simp only [load_command]
    rw [if_neg (by omega), if_neg (by omega)]
    simp
  · intro data n h
    simp only [load_command]
    rw [if_neg (by omega), if_pos (by omega)]

/-- Witness for C4 at concrete logs: recording `ls -l` and recalling
`last` returns `ls -l`; recalling 999 on a three-entry log fails with
the range diagnostic. -/
theorem load_command_recall_semantics_witness :
    load_command (some ["echo hi", "ls -l"]) (-1) = .ok "ls -l" ∧
    load_command (some ["a", "b", "c"]) ((999 : Nat) : Int) =
      .error .errInvalidHistoryRef ∧
    load_command (some ["a", "b", "c"]) ((1 : Nat) : Int) = .ok "b" ∧
    load_command none 0 = .error .errNoHistoryFile :=
  ⟨load_command_recall_semantics.2.1 ["echo hi", "ls -l"] "ls -l" (by decide),
   load_command_recall_semantics.2.2.2 ["a", "b", "c"] 999 (by decide),
   load_command_recall_semantics.2.2.1 ["a", "b", "c"] 1 (by decide),
   load_command_recall_semantics.1 0⟩

/-- C2 counterexample: the resolved command of `exit > out` is the
builtin `exit` and the line carries a redirection token, yet the code
never reports the builtin I/O-redirection diagnostic: `do_exit` runs,
prints `exit: too many arguments`, and then — the `exit(exit_status)`
at line 1116 being unconditional — terminates the interpreter with
status 0. -/
theorem exitRedirectionNotRejectedAsBuiltin :
    execute_command envNone none ["exit", ">", "out"] =
      ([.errTooManyArgs "exit", .exited 0], some ["exit > out"]) ∧
    (∀ p, Event.errBuiltinRedir p ∉
      (execute_command envNone none ["exit", ">", "out"]).1) := by
  refine ⟨rfl, ?_⟩
  intro p hp
  have : (execute_command envNone none ["exit", ">", "out"]).1 =
      [.errTooManyArgs "exit", .exited 0] := rfl
  rw [this] at hp
  simp at hp

/-- C3 counterexample: the non-empty line `a >` tokenizes successfully
but fails syntax validation, and `store_command` (line 219) runs only
after `redirection_check_arg` (line 162), so NO history entry is
recorded for it, contrary to the claim that validation failures are
still recorded. -/
theorem syntaxErrorLineNotRecorded :
    execute_command envNone (some ["old"]) ["a", ">"] =
      ([.errInvalidOutputRedir], some ["old"]) ∧
    (execute_command envNone (some ["old"]) ["a", ">"]).2 ≠
      some ["old", "a >"] := by
  refine ⟨rfl, ?_⟩
  intro h
  have h2 : (some ["old"] : Option (List String)) = some ["old", "a >"] := h
  simp at h2

/-- C9 counterexample: with a search path containing only `/bin`, no
`/bin/cwdprog`, but an executable file `cwdprog` in the working
directory, exhausting the search path does NOT produce `command not
found`: line 311 re-checks the bare token relative to the working
directory and spawns it. -/
theorem resolveFallsBackToWorkingDirectory :
    (∀ d ∈ envCwdOnly.path, envCwdOnly.isExec (d ++ "/" ++ "cwdprog") = false) ∧
    execute_command envCwdOnly none ["cwdprog"] =
      ([.spawnedDirect "cwdprog" ["cwdprog"]], some ["cwdprog"]) ∧
    (∀ p, Event.errCommandNotFound p ∉
      (execute_command envCwdOnly none ["cwdprog"]).1) ∧
    (execute_command envCwdOnly none ["cwdprog"]).1.any Event.isSpawn = true := by
  refine ⟨by decide, rfl, ?_, by decide⟩
  intro p hp
  have : (execute_command envCwdOnly none ["cwdprog"]).1 =
      [.spawnedDirect "cwdprog" ["cwdprog"]] := rfl
  rw [this] at hp
  simp at hp

/-- C6 counterexample: expanding `ls -l *.c` where `*.c` matches `a.c`
drops the metacharacter-free token `-l` entirely: `check_glob` rebuilds
the line as `words[0]` followed by the matches only, so the final token
sequence is `ls a.c`, not `ls -l a.c` as the claim requires. -/
theorem globExpansionDropsPlainTokens :
    check_glob envGlobC.glob ["ls", "-l", "*.c"] = some "ls a.c\n" ∧
    execute_command envGlobC (some []) ["ls", "-l", "*.c"] =
      ([.spawnedDirect "/bin/ls" ["ls", "a.c"]], some ["ls -l *.c"]) ∧
    (["ls", "a.c"] : List String) ≠ ["ls", "-l", "a.c"] := by
  refine ⟨by decide, rfl, by decide⟩

/-- C6 (amended): with no metacharacter anywhere the token sequence is
returned unchanged (`check_glob` yields `none`); otherwise, provided the
program token itself is not flagged, the rebuilt line is the program
token followed by the concatenated matches of each flagged token in
order, with unmatched patterns kept literally (`GLOB_NOCHECK`); all
other unflagged tokens are dropped.  The spec §8 examples evaluate
accordingly. -/
theorem globExpansionSemantics :
    (∀ (g : String → List String) (words : List String),
      (∀ w ∈ words, hasMeta w = false) → check_glob g words = none) ∧
    (∀ (g : String → List String) (words : List String),
      globIndices words ≠ [] → hasMeta (words.getD 0 "") = false →
      check_glob g words =
        some (words.getD 0 "" ++ " " ++
          String.intercalate " "
            ((globIndices words).flatMap fun i => globNoCheck g (words.getD i "")) ++
          "\n")) ∧
    (∀ (g : String → List String) (pat : String), g pat = [] →
      globNoCheck g pat = [pat]) ∧
    (check_glob envGlobC.glob ["ls", "*.c"] = some "ls a.c\n" ∧
      tokenizeStr "ls a.c\n" = ["ls", "a.c"]) ∧
    (check_glob envGlobC.glob ["ls", "nomatch*.xyz"] = some "ls nomatch*.xyz\n" ∧
      tokenizeStr "ls nomatch*.xyz\n" = ["ls", "nomatch*.xyz"]) := by
  refine ⟨check_glob_no_meta, ?_, ?_, ⟨by decide, by decide⟩, ⟨by decide, by decide⟩⟩
  · intro g words hne h0
    have h0nf : ∀ i ∈ globIndices words, i ≠ 0 := by
      intro i hi h0f
      subst h0f
      have hthis := List.of_mem_filter hi
      have h0' := h0
      simp only [List.getD, List.get?_eq_getElem?] at h0'
      simp [h0'] at hthis
    have htw : (globIndices words).takeWhile (fun i => i ≠ 0) = globIndices words :=
      List.takeWhile_eq_self_iff.mpr fun x hx => by simp [h0nf x hx]
    unfold check_glob
    rw [if_neg (by simpa [List.isEmpty_iff] using hne)]
    rw [htw]
  · intro g pat h
    unfold globNoCheck
    rw [h]

/-- Witness for C6 (amended) at concrete inputs. -/
theorem globExpansionSemantics_witness :
    check_glob envGlobC.glob ["ls", "echo"] = none ∧
    check_glob envGlobC.glob ["ls", "-l", "*.c"] =
      some (["ls", "-l", "*.c"].getD 0 "" ++ " " ++
        String.intercalate " "
          ((globIndices ["ls", "-l", "*.c"]).flatMap fun i =>
            globNoCheck envGlobC.glob (["ls", "-l", "*.c"].getD i "")) ++
        "\n") ∧
    globNoCheck envGlobC.glob "z*" = ["z*"] :=
  ⟨globExpansionSemantics.1 envGlobC.glob ["ls", "echo"] (by decide),
   globExpansionSemantics.2.1 envGlobC.glob ["ls", "-l", "*.c"] (by decide) (by decide),
   globExpansionSemantics.2.2.1 envGlobC.glob "z*" (by decide)⟩

/-- C3 (amended): an empty token list is a no-op; a line failing the
redirection check is not recorded; a non-bang line passing the check is
recorded as the words joined by single spaces (the finalized line), even
when the later resolution or execution fails; a bang line records the
substituted recalled line instead, provided the reference resolves and
the substituted line passes the check. -/
theorem historyRecordingAfterValidation :
    (∀ (env : Env) (hist : Option (List String)),
      execute_command env hist [] = ([], hist)) ∧
    (∀ (env : Env) (hist : Option (List String)) (words : List String) (e : Event),
      redirection_check_arg words = .error e →
      (execute_command env hist words).2 = hist) ∧
    (∀ (env : Env) (hist : Option (List String)) (words : List String)
        (v : Nat × Nat × Nat),
      words ≠ [] → words.getD 0 "" ≠ "!" →
      redirection_check_arg words = .ok v →
      (execute_command env hist words).2 = some (hist.getD [] ++ [unwords words])) ∧
    (∀ (env : Env) (hist : Option (List String)) (words : List String)
        (n : Int) (line : String) (v : Nat × Nat × Nat),
      words.getD 0 "" = "!" → words ≠ [] →
      redirection_check_arg words = .ok (0, 0, 0) →
      exclamation_check_arg words.length words = .ok n →
      load_command hist n = .ok line →
      redirection_check_arg (tokenizeStr line) = .ok v →
      (execute_command env hist words).2 =
        some (hist.getD [] ++ [unwords (tokenizeStr line)])) := by
  refine ⟨fun env hist => rfl, ?_, ?_, ?_⟩
  · intro env hist words e h
    cases words with
    | nil => simp [redirection_check_arg, rcLoop, RCSt.init] at h
    | cons a t =>
      simp only [execute_command, List.isEmpty_cons, Bool.false_eq_true,
        if_false, h]
  · intro env hist words v hne hbang h
    obtain ⟨i1, o1, p1⟩ := v
    cases words with
    | nil => exact absurd rfl hne
    | cons a t =>
      simp only [execute_command, List.isEmpty_cons, Bool.false_eq_true,
        if_false, h]
      rw [if_neg hbang]
      rfl
  · intro env hist words n line v hbang hne hcheck hexcl hload hcheck2
    obtain ⟨i2, o2, p2⟩ := v
    cases words with
    | nil => exact absurd rfl hne
    | cons a t =>
      simp only [execute_command, List.isEmpty_cons, Bool.false_eq_true,
        if_false, hcheck]
      rw [if_pos hbang]
      simp only [execBang, hexcl, hload, hcheck2]
      rw [if_neg (by simp)]
      rfl

/-- Witness for C3 (amended): a plain valid line is recorded even though
its program cannot be resolved; an invalid line is not; a bang line
records the recalled text. -/
theorem historyRecordingAfterValidation_witness :
    (execute_command envNone (some ["old"]) ["nosuchprog", "x"]).2 =
      some ["old", "nosuchprog x"] ∧
    (execute_command envNone (some ["old"]) ["<", "f"]).2 = some ["old"] ∧
    (execute_command envNone (some ["ls -l"]) ["!"]).2 =
      some ["ls -l", "ls -l"] :=
  ⟨by
    have := historyRecordingAfterValidation.2.2.1 envNone (some ["old"])
      ["nosuchprog", "x"] (0, 0, 0) (by decide) (by decide) rfl
    simpa using this,
   by
    have := historyRecordingAfterValidation.2.1 envNone (some ["old"])
      ["<", "f"] .errInvalidInputRedir rfl
    simpa using this,
   by
    have := historyRecordingAfterValidation.2.2.2 envNone (some ["ls -l"])
      ["!"] (-1) "ls -l" (0, 0, 0) (by decide) (by decide) rfl rfl rfl rfl
    simpa using this⟩

/-- Executing a single plain token (not a builtin name, not a grammar
token, no metacharacter): the line is recorded, the token resolved, and
either spawned directly or reported not found. -/
theorem execute_single_plain (env : Env) (hist : Option (List String))
    (prog : String)
    (hexit : prog ≠ "exit") (hpwd : prog ≠ "pwd") (hcd : prog ≠ "cd")
    (hhist : prog ≠ "history") (hbang : prog ≠ "!") (hlt : prog ≠ "<")
    (hgt : prog ≠ ">") (hpipe : prog ≠ "|") (hmeta : hasMeta prog = false) :
    execute_command env hist [prog] =
      ((if env.isExec (resolveProgram env prog) then
          [Event.spawnedDirect (resolveProgram env prog) [prog]]
        else [Event.errCommandNotFound (resolveProgram env prog)]),
       some (hist.getD [] ++ [prog])) := by
  have hcheck : redirection_check_arg [prog] = .ok (0, 0, 0) := by
    apply redirection_check_no_specials
    intro w hw
    simp only [List.mem_singleton] at hw
    subst hw
    exact ⟨hlt, hgt, hpipe⟩
  simp only [execute_command, List.isEmpty_cons, Bool.false_eq_true,
    if_false, hcheck]
  rw [if_neg (by simp only [List.getD_cons_zero]; exact hbang)]
  simp only [execStore, execStoreEvents, progOf, List.getD_cons_zero]
  rw [if_neg hlt, if_neg hexit,
    check_glob_no_meta env.glob [prog]
      (by intro w hw; simp only [List.mem_singleton] at hw; subst hw; exact hmeta),
    if_neg hpwd, if_neg hcd, if_neg hhist]
  by_cases hx : env.isExec (resolveProgram env prog)
  · rw [if_pos hx, if_pos hx]
    rfl
  · rw [if_neg hx, if_neg hx]
    rfl

/-- C9 (amended): a program token containing `/` is used verbatim; a
bare token is combined with each search-path directory in order and the
first combination passing `is_executable` wins; when every directory
fails, the bare token itself remains and is then checked relative to the
working directory: it is spawned when that check passes, and only when
it also fails is `command not found` reported with nothing spawned. -/
theorem resolveSearchSemantics :
    (∀ (env : Env) (prog : String), containsChar prog '/' = true →
      resolveProgram env prog = prog) ∧
    (∀ (env : Env) (prog : String) (pre post : List String) (d : String),
      containsChar prog '/' = false →
      env.path = pre ++ d :: post →
      (∀ d2 ∈ pre, env.isExec (d2 ++ "/" ++ prog) = false) →
      env.isExec (d ++ "/" ++ prog) = true →
      resolveProgram env prog = d ++ "/" ++ prog) ∧
    (∀ (env : Env) (prog : String), containsChar prog '/' = false →
      (∀ d ∈ env.path, env.isExec (d ++ "/" ++ prog) = false) →
      resolveProgram env prog = prog) ∧
    (∀ (env : Env) (hist : Option (List String)) (prog : String),
      prog ∉ (["exit", "pwd", "cd", "history", "!", "<", ">", "|"] : List String) →
      hasMeta prog = false →
      env.isExec (resolveProgram env prog) = false →
      execute_command env hist [prog] =
        ([.errCommandNotFound (resolveProgram env prog)],
         some (hist.getD [] ++ [prog]))) ∧
    (∀ (env : Env) (hist : Option (List String)) (prog : String),
      prog ∉ (["exit", "pwd", "cd", "history", "!", "<", ">", "|"] : List String) →
      hasMeta prog = false →
      env.isExec (resolveProgram env prog) = true →
      execute_command env hist [prog] =
        ([.spawnedDirect (resolveProgram env prog) [prog]],
         some (hist.getD [] ++ [prog]))) := by
  have hsplit : ∀ prog : String,
      prog ∉ (["exit", "pwd", "cd", "history", "!", "<", ">", "|"] : List String) →
      prog ≠ "exit" ∧ prog ≠ "pwd" ∧ prog ≠ "cd" ∧ prog ≠ "history" ∧
      prog ≠ "!" ∧ prog ≠ "<" ∧ prog ≠ ">" ∧ prog ≠ "|" := by
    intro prog h
    simp only [List.mem_cons, List.not_mem_nil, or_false, not_or] at h
    exact h
  refine ⟨?_, ?_, ?_, ?_, ?_⟩
  · intro env prog h
    unfold resolveProgram
    rw [if_pos h]
  · intro env prog pre post d h hpath hpre hd
    unfold resolveProgram
    rw [if_neg (by simp [h]), hpath, find?_boundary _ pre d post hpre hd]
  · intro env prog h hall
    unfold resolveProgram
    rw [if_neg (by simp [h]), List.find?_eq_none.mpr fun d hd => by simp [hall d hd]]
  · intro env hist prog hnot hmeta hexec
    obtain ⟨h1, h2, h3, h4, h5, h6, h7, h8⟩ := hsplit prog hnot
    rw [execute_single_plain env hist prog h1 h2 h3 h4 h5 h6 h7 h8 hmeta,
      if_neg (by simp [hexec])]
  · intro env hist prog hnot hmeta hexec
    obtain ⟨h1, h2, h3, h4, h5, h6, h7, h8⟩ := hsplit prog hnot
    rw [execute_single_plain env hist prog h1 h2 h3 h4 h5 h6 h7 h8 hmeta,
      if_pos hexec]

/-- Witness for C9 (amended) at concrete environments. -/
theorem resolveSearchSemantics_witness :
    resolveProgram envNone "a/b" = "a/b" ∧
    resolveProgram envTwoProgs "a" = "/bin/a" ∧
    resolveProgram envNone "frob" = "frob" ∧
    execute_command envNone none ["frob"] =
      ([.errCommandNotFound "frob"], some ["frob"]) ∧
    execute_command envCwdOnly none ["cwdprog"] =
      ([.spawnedDirect "cwdprog" ["cwdprog"]], some ["cwdprog"]) :=
  ⟨resolveSearchSemantics.1 envNone "a/b" (by decide),
   resolveSearchSemantics.2.1 envTwoProgs "a" [] [] "/bin" (by decide) rfl
     (by intro d2 hd2; simp at hd2) (by decide),
   resolveSearchSemantics.2.2.1 envNone "frob" (by decide)
     (by intro d hd; simp [envNone] at hd),
   by
    have := resolveSearchSemantics.2.2.2.1 envNone none "frob" (by decide)
      (by decide) (by decide)
    simpa using this,
   by
    have := resolveSearchSemantics.2.2.2.2 envCwdOnly none "cwdprog" (by decide)
      (by decide) (by decide)
    simpa using this⟩

/-- C10: a `history` invocation with count `n` (default 10) prints at
most `n` entries, oldest first with strictly increasing 0-based labels,
each labelled entry being the log line of that index, and the log's
final entry - the just-recorded `history` line itself - is never
shown. -/
theorem historyListingBounded :
    (∀ (data : List String) (num : Nat),
      (print_history data num).length ≤ num ∧
      (∀ p ∈ print_history data num, p.1 + 1 < data.length ∧ p.2 = data.getD p.1 "") ∧
      (print_history data num).map Prod.fst =
        List.range' (data.length - 1 - num)
          (data.length - 1 - (data.length - 1 - num)) ∧
      List.Pairwise (fun p q => p.1 < q.1) (print_history data num)) ∧
    (∀ (env : Env) (hist : Option (List String)),
      execute_command env hist ["history"] =
        ([.printedHistory (print_history (hist.getD [] ++ ["history"]) 10)],
         some (hist.getD [] ++ ["history"]))) ∧
    (∀ (env : Env) (hist : Option (List String)) (s : String), allDigits s = true →
      execute_command env hist ["history", s] =
        ([.printedHistory
            (print_history (hist.getD [] ++ [unwords ["history", s]]) (atoiNat s))],
         some (hist.getD [] ++ [unwords ["history", s]]))) := by
  refine ⟨?_, ?_, ?_⟩
  · intro data num
    refine ⟨?_, ?_, ?_, ?_⟩
    · unfold print_history
      rw [List.length_map, List.length_range']
      omega
    · intro p hp
      unfold print_history at hp
      obtain ⟨j, hj, rfl⟩ := List.mem_map.mp hp
      have := List.mem_range'_1.mp hj
      exact ⟨by omega, rfl⟩
    · unfold print_history
      rw [List.map_map]
      have : (Prod.fst ∘ fun j => ((j : Nat), data.getD j "")) = id := rfl
      rw [this, List.map_id]
    · unfold print_history
      rw [List.pairwise_map]
      exact List.pairwise_lt_range' _ _
  · intro env hist
    rfl
  · intro env hist s hs
    obtain ⟨hlt, hgt, hpipe, hbang, hmeta⟩ := allDigits_plain s hs
    have hcheck : redirection_check_arg ["history", s] = .ok (0, 0, 0) := by
      apply redirection_check_no_specials
      intro w hw
      simp only [List.mem_cons, List.not_mem_nil, or_false] at hw
      rcases hw with h | h <;> subst h
      · exact ⟨by decide, by decide, by decide⟩
      · exact ⟨hlt, hgt, hpipe⟩
    simp only [execute_command, List.isEmpty_cons, Bool.false_eq_true,
      if_false, hcheck]
    rw [if_neg (by simp)]
    simp only [execStore, execStoreEvents, progOf, List.getD_cons_zero]
    rw [if_neg (show ("history" : String) ≠ "<" from by decide),
      if_neg (show ("history" : String) ≠ "exit" from by decide),
      check_glob_no_meta env.glob ["history", s]
        (by
          intro w hw
          simp only [List.mem_cons, List.not_mem_nil, or_false] at hw
          rcases hw with h | h <;> subst h
          · decide
          · exact hmeta),
      if_neg (show ("history" : String) ≠ "pwd" from by decide),
      if_neg (show ("history" : String) ≠ "cd" from by decide),
      if_pos (show ("history" : String) = "history" from rfl),
      if_neg (by simp)]
    have harg : history_check_arg (["history", s] : List String).length ["history", s] =
        .ok (atoiNat s) := by
      unfold history_check_arg
      rw [if_neg (by simp), if_pos (by simp)]
      simp only [List.getD_cons_succ, List.getD_cons_zero]
      rw [if_pos hs]
    rw [harg]
    rfl

/-- Witness for C10 at a concrete log: five entries, count 2, shows
entries 2 and 3 only; executing `history` after log `x y` shows both
with the new final line hidden. -/
theorem historyListingBounded_witness :
    ((print_history ["a", "b", "c", "d", "e"] 2).length ≤ 2 ∧
      (∀ p ∈ print_history ["a", "b", "c", "d", "e"] 2,
        p.1 + 1 < (["a", "b", "c", "d", "e"] : List String).length ∧
        p.2 = (["a", "b", "c", "d", "e"] : List String).getD p.1 "") ∧
      (print_history ["a", "b", "c", "d", "e"] 2).map Prod.fst =
        List.range' ((["a", "b", "c", "d", "e"] : List String).length - 1 - 2)
          ((["a", "b", "c", "d", "e"] : List String).length - 1 -
            ((["a", "b", "c", "d", "e"] : List String).length - 1 - 2)) ∧
      List.Pairwise (fun p q => p.1 < q.1)
        (print_history ["a", "b", "c", "d", "e"] 2)) ∧
    execute_command envNone (some ["x", "y"]) ["history"] =
      ([.printedHistory (print_history (["x", "y"] ++ ["history"]) 10)],
       some (["x", "y"] ++ ["history"])) ∧
    execute_command envNone (some ["x", "y"]) ["history", "1"] =
      ([.printedHistory
          (print_history (["x", "y"] ++ [unwords ["history", "1"]]) (atoiNat "1"))],
       some (["x", "y"] ++ [unwords ["history", "1"]])) :=
  ⟨historyListingBounded.1 ["a", "b", "c", "d", "e"] 2,
   historyListingBounded.2.1 envNone (some ["x", "y"]),
   historyListingBounded.2.2 envNone (some ["x", "y"]) "1" (by decide)⟩

/-! ## Validator loop characterization (for the positional grammar) -/

/-- The error counters of `redirection_check_arg`'s loop never
decrease. -/
theorem rcLoop_err_mono (words : List String) (count : Nat) :
    ∀ (fuel i : Nat) (st : RCSt),
      st.inputErr ≤ (rcLoop words count fuel i st).inputErr ∧
      st.outputErr ≤ (rcLoop words count fuel i st).outputErr ∧
      st.pipeErr ≤ (rcLoop words count fuel i st).pipeErr := by
  intro fuel
  induction fuel with
  | zero => intro i st; exact ⟨Nat.le_refl _, Nat.le_refl _, Nat.le_refl _⟩
  | succ fuel ih =>
    intro i st
    simp only [rcLoop]
    split_ifs
    all_goals first
      | exact ⟨Nat.le_refl _, Nat.le_refl _, Nat.le_refl _⟩
      | (refine ⟨Nat.le_trans ?_ (ih (i + 1) _).1,
          Nat.le_trans ?_ (ih (i + 1) _).2.1,
          Nat.le_trans ?_ (ih (i + 1) _).2.2⟩ <;> (simp; try omega))
      | (refine ⟨?_, ?_, ?_⟩ <;> (simp; try omega))

/-- Any increase of the input-error counter stems from a `<` token in a
position violating the `<` rule. -/
theorem rcLoop_inputErr_src (words : List String) (count : Nat) :
    ∀ (fuel i : Nat) (st : RCSt),
      (rcLoop words count fuel i st).inputErr ≠ st.inputErr →
      ∃ j, i ≤ j ∧ j < count ∧ words.getD j "" = "<" ∧
        ¬(j = 0 ∧ 3 ≤ count) := by
  intro fuel
  induction fuel with
  | zero => intro i st h; exact absurd rfl h
  | succ fuel ih =>
    intro i st h
    simp only [rcLoop] at h
    split_ifs at h with h1 h2 h3 h4
    all_goals first
      | exact absurd rfl h
      | (exact ⟨i, Nat.le_refl i, by assumption, by assumption,
          fun hc => by omega⟩)
      | (obtain ⟨j, hj1, hj2, hj3, hj4⟩ := ih (i + 1) _ h
         exact ⟨j, by omega, hj2, hj3, hj4⟩)

/-- Any increase of the output-error counter stems from a `>` token in a
position violating the `>` rule. -/
theorem rcLoop_outputErr_src (words : List String) (count : Nat) :
    ∀ (fuel i : Nat) (st : RCSt),
      (rcLoop words count fuel i st).outputErr ≠ st.outputErr →
      ∃ j, i ≤ j ∧ j < count ∧ words.getD j "" = ">" ∧
        ¬(3 ≤ count ∧ j ≠ 0 ∧ (j + 2 = count ∨
          (j + 3 = count ∧ words.getD (j + 1) "" = ">"))) := by
  intro fuel
  induction fuel with
  | zero => intro i st h; exact absurd rfl h
  | succ fuel ih =>
    intro i st h
    simp only [rcLoop] at h
    split_ifs at h with h1 h2 h3 h4 h5 h6 h7 h8 h9
    all_goals try exact absurd rfl h
    all_goals
      try (obtain ⟨j, hj1, hj2, hj3, hj4⟩ := ih (i + 1) _ h
           exact ⟨j, by omega, hj2, hj3, hj4⟩)
    all_goals
      refine ⟨i, Nat.le_refl i, h1, by assumption, fun hc => ?_⟩
    all_goals obtain ⟨hca, hcb, hcc⟩ := hc
    all_goals rcases hcc with hcc | ⟨hcc1, hcc2⟩
    all_goals try omega
    all_goals try exact absurd hcc2 (by assumption)

/-- Any increase of the pipe-error counter stems from a `|` token in a
position violating the `|` rule. -/
theorem rcLoop_pipeErr_src (words : List String) (count : Nat) :
    ∀ (fuel i : Nat) (st : RCSt),
      (rcLoop words count fuel i st).pipeErr ≠ st.pipeErr →
      ∃ j, i ≤ j ∧ j < count ∧ words.getD j "" = "|" ∧
        ¬(0 < j ∧ j + 1 < count ∧ words.getD (j - 1) "" ≠ "|") := by
  intro fuel
  induction fuel with
  | zero => intro i st h; exact absurd rfl h
  | succ fuel ih =>
    intro i st h
    simp only [rcLoop] at h
    split_ifs at h with h1 h2 h3 h4 h5 h6 h7 h8
    all_goals try exact absurd rfl h
    all_goals
      try (obtain ⟨j, hj1, hj2, hj3, hj4⟩ := ih (i + 1) _ h
           exact ⟨j, by omega, hj2, hj3, hj4⟩)
    all_goals
      refine ⟨i, Nat.le_refl i, h1, by assumption, fun hc => ?_⟩
    all_goals obtain ⟨hca, hcb, hcc⟩ := hc
    all_goals try omega
    all_goals try exact absurd (by assumption) hcc

/-- The loop ends with all error counters zero exactly when they started
at zero and every remaining token satisfies its positional condition. -/
theorem rcLoop_zero_iff (words : List String) (count : Nat) :
    ∀ (fuel i : Nat) (st : RCSt), count ≤ fuel + i →
      (((rcLoop words count fuel i st).inputErr = 0 ∧
        (rcLoop words count fuel i st).outputErr = 0 ∧
        (rcLoop words count fuel i st).pipeErr = 0) ↔
       (st.inputErr = 0 ∧ st.outputErr = 0 ∧ st.pipeErr = 0 ∧
        ∀ j, i ≤ j → j < count → validTokenCond words count j)) := by
  intro fuel
  induction fuel with
  | zero =>
    intro i st hfi
    constructor
    · rintro ⟨a, b, c⟩
      exact ⟨a, b, c, fun j hj1 hj2 => absurd hj2 (by omega)⟩
    · rintro ⟨a, b, c, _⟩
      exact ⟨a, b, c⟩
  | succ fuel ih =>
    intro i st hfi
    by_cases hi : i < count
    case neg =>
      simp only [rcLoop]
      rw [if_neg hi]
      constructor
      · rintro ⟨a, b, c⟩
        exact ⟨a, b, c, fun j hj1 hj2 => absurd hj2 (by omega)⟩
      · rintro ⟨a, b, c, _⟩
        exact ⟨a, b, c⟩
    case pos =>
      have hval : ∀ st2 : RCSt,
          st2.inputErr = st.inputErr → st2.outputErr = st.outputErr →
          st2.pipeErr = st.pipeErr → validTokenCond words count i →
          (((rcLoop words count fuel (i + 1) st2).inputErr = 0 ∧
            (rcLoop words count fuel (i + 1) st2).outputErr = 0 ∧
            (rcLoop words count fuel (i + 1) st2).pipeErr = 0) ↔
           (st.inputErr = 0 ∧ st.outputErr = 0 ∧ st.pipeErr = 0 ∧
            ∀ j, i ≤ j → j < count → validTokenCond words count j)) := by
        intro st2 e1 e2 e3 hcond
        rw [ih (i + 1) st2 (by omega)]
        constructor
        · rintro ⟨a, b, c, hall⟩
          refine ⟨by omega, by omega, by omega, ?_⟩
          intro j hj1 hj2
          rcases Nat.eq_or_lt_of_le hj1 with rfl | hlt2
          · exact hcond
          · exact hall j (by omega) hj2
        · rintro ⟨a, b, c, hall⟩
          exact ⟨by omega, by omega, by omega,
            fun j hj1 hj2 => hall j (by omega) hj2⟩
      have hinv : ∀ st2 : RCSt,
          st.inputErr + st.outputErr + st.pipeErr + 1 ≤
            st2.inputErr + st2.outputErr + st2.pipeErr →
          ¬ validTokenCond words count i →
          (((rcLoop words count fuel (i + 1) st2).inputErr = 0 ∧
            (rcLoop words count fuel (i + 1) st2).outputErr = 0 ∧
            (rcLoop words count fuel (i + 1) st2).pipeErr = 0) ↔
           (st.inputErr = 0 ∧ st.outputErr = 0 ∧ st.pipeErr = 0 ∧
            ∀ j, i ≤ j → j < count → validTokenCond words count j)) := by
        intro st2 hsum hnc
        constructor
        · rintro ⟨a, b, c⟩
          exfalso
          obtain ⟨m1, m2, m3⟩ := rcLoop_err_mono words count fuel (i + 1) st2
          omega
        · rintro ⟨_, _, _, hall⟩
          exact absurd (hall i (Nat.le_refl i) hi) hnc
      by_cases hw1 : words.getD i "" = "<"
      · by_cases hc3 : count < 3
        · simp only [rcLoop]
          rw [if_pos hi, if_pos hw1, if_pos hc3]
          constructor
          · rintro ⟨a, _, _⟩
            simp at a
          · rintro ⟨_, _, _, hall⟩
            have := ((hall i (Nat.le_refl i) hi).1 hw1).2
            omega
        · by_cases hi0 : i = 0
          · simp only [rcLoop]
            rw [if_pos hi, if_pos hw1, if_neg hc3, if_pos hi0]
            exact hval _ rfl rfl rfl
              ⟨fun _ => ⟨hi0, by omega⟩,
               fun hgt => absurd (hw1.symm.trans hgt) (by decide),
               fun hp => absurd (hw1.symm.trans hp) (by decide)⟩
          · simp only [rcLoop]
            rw [if_pos hi, if_pos hw1, if_neg hc3, if_neg hi0]
            constructor
            · rintro ⟨a, _, _⟩
              simp at a
            · rintro ⟨_, _, _, hall⟩
              exact absurd ((hall i (Nat.le_refl i) hi).1 hw1).1 hi0
      · by_cases hw2 : words.getD i "" = ">"
        · simp only [rcLoop]
          rw [if_pos hi, if_neg hw1, if_pos hw2]
          by_cases hc3 : count < 3
          · rw [if_pos hc3]
            have hnc : ¬ validTokenCond words count i := fun hvc => by
              have := (hvc.2.1 hw2).1
              omega
            split_ifs
            all_goals exact hinv _ (by simp; try omega) hnc
          · rw [if_neg hc3]
            split_ifs with ha hb hcnext hd
            · exact hinv _ (by simp; try omega)
                (fun hvc => absurd ha (hvc.2.1 hw2).2.1)
            · exact hval _ rfl rfl rfl
                ⟨fun hlt => absurd (hw2.symm.trans hlt) (by decide),
                 fun _ => ⟨by omega, ha, Or.inr ⟨hb, hcnext⟩⟩,
                 fun hp => absurd (hw2.symm.trans hp) (by decide)⟩
            · exact hinv _ (by simp; try omega) (fun hvc => by
                rcases (hvc.2.1 hw2).2.2 with h2 | ⟨h3, hnext⟩
                · omega
                · exact hcnext hnext)
            · exact hval _ rfl rfl rfl
                ⟨fun hlt => absurd (hw2.symm.trans hlt) (by decide),
                 fun _ => ⟨by omega, ha, Or.inl hd⟩,
                 fun hp => absurd (hw2.symm.trans hp) (by decide)⟩
            · exact hinv _ (by simp; try omega) (fun hvc => by
                rcases (hvc.2.1 hw2).2.2 with h2 | ⟨h3, hnext⟩
                · exact hd h2
                · exact hb h3)
        · by_cases hw3 : words.getD i "" = "|"
          · simp only [rcLoop]
            rw [if_pos hi, if_neg hw1, if_neg hw2, if_pos hw3]
            by_cases hc3 : count < 3
            · rw [if_pos hc3]
              have hnc : ¬ validTokenCond words count i := fun hvc => by
                have h3 := hvc.2.2 hw3
                omega
              split_ifs
              all_goals exact hinv _ (by simp; try omega) hnc
            · rw [if_neg hc3]
              split_ifs with ha hb hcp
              · exact hinv _ (by simp; try omega) (fun hvc => by
                  have h3 := (hvc.2.2 hw3).1
                  omega)
              · exact hinv _ (by simp; try omega) (fun hvc => by
                  have h3 := (hvc.2.2 hw3).2.1
                  omega)
              · exact hinv _ (by simp; try omega)
                  (fun hvc => (hvc.2.2 hw3).2.2 hcp)
              · exact hval _ rfl rfl rfl
                  ⟨fun hlt => absurd (hw3.symm.trans hlt) (by decide),
                   fun hgt => absurd (hw3.symm.trans hgt) (by decide),
                   fun _ => ⟨by omega, by omega, hcp⟩⟩
          · simp only [rcLoop]
            rw [if_pos hi, if_neg hw1, if_neg hw2, if_neg hw3]
            exact hval st rfl rfl rfl
              ⟨fun h => absurd h hw1, fun h => absurd h hw2,
               fun h => absurd h hw3⟩

/-- C8: `redirection_check_arg` over a sequence of length `count`
accepts exactly when every `<` sits at position 0 with `count ≥ 3`,
every single `>` at `count - 2` (or the pair `> >` at `count - 3` and
`count - 2`, never at 0, with `count ≥ 3`), and every `|` strictly
inside with no two adjacent; each reported error kind stems from a token
of that kind violating its rule, and on any validation error
`execute_command` returns that sole diagnostic with no process spawned
and nothing recorded. -/
theorem redirectionValidationPositions :
    ∀ words : List String,
      ((∃ v, redirection_check_arg words = .ok v) ↔
        ∀ i, i < words.length → validTokenCond words words.length i) ∧
      (redirection_check_arg words = .error .errInvalidInputRedir →
        ∃ j, j < words.length ∧ words.getD j "" = "<" ∧
          ¬(j = 0 ∧ 3 ≤ words.length)) ∧
      (redirection_check_arg words = .error .errInvalidOutputRedir →
        ∃ j, j < words.length ∧ words.getD j "" = ">" ∧
          ¬(3 ≤ words.length ∧ j ≠ 0 ∧ (j + 2 = words.length ∨
            (j + 3 = words.length ∧ words.getD (j + 1) "" = ">")))) ∧
      (redirection_check_arg words = .error .errInvalidPipe →
        ∃ j, j < words.length ∧ words.getD j "" = "|" ∧
          ¬(0 < j ∧ j + 1 < words.length ∧ words.getD (j - 1) "" ≠ "|")) ∧
      (∀ (env : Env) (hist : Option (List String)) (e : Event),
        redirection_check_arg words = .error e →
        execute_command env hist words = ([e], hist)) := by
  intro words
  have hok : (∃ v, redirection_check_arg words = Except.ok v) ↔
      ((rcLoop words words.length words.length 0 RCSt.init).inputErr = 0 ∧
       (rcLoop words words.length words.length 0 RCSt.init).outputErr = 0 ∧
       (rcLoop words words.length words.length 0 RCSt.init).pipeErr = 0) := by
    unfold redirection_check_arg
    by_cases c1 : (rcLoop words words.length words.length 0 RCSt.init).inputErr > 0
    · rw [if_pos c1]
      constructor
      · rintro ⟨v, hv⟩; simp at hv
      · rintro ⟨a, _, _⟩; omega
    · rw [if_neg c1]
      by_cases c2 : (rcLoop words words.length words.length 0 RCSt.init).outputErr > 0
      · rw [if_pos c2]
        constructor
        · rintro ⟨v, hv⟩; simp at hv
        · rintro ⟨_, b, _⟩; omega
      · rw [if_neg c2]
        by_cases c3 : (rcLoop words words.length words.length 0 RCSt.init).pipeErr > 0
        · rw [if_pos c3]
          constructor
          · rintro ⟨v, hv⟩; simp at hv
          · rintro ⟨_, _, c⟩; omega
        · rw [if_neg c3]
          exact ⟨fun _ => ⟨by omega, by omega, by omega⟩, fun _ => ⟨_, rfl⟩⟩
  refine ⟨?_, ?_, ?_, ?_, ?_⟩
  · rw [hok, rcLoop_zero_iff words words.length words.length 0 RCSt.init (by omega)]
    constructor
    · rintro ⟨_, _, _, h⟩
      exact fun i hi => h i (Nat.zero_le i) hi
    · intro h
      exact ⟨rfl, rfl, rfl, fun j _ hj => h j hj⟩
  · intro h
    have hne : (rcLoop words words.length words.length 0 RCSt.init).inputErr ≠
        RCSt.init.inputErr := by
      simp only [redirection_check_arg] at h
      split_ifs at h with c1 c2 c3
      all_goals try (show _ ≠ 0; omega)
      all_goals simp at h
    obtain ⟨j, _, hj2, hj3, hj4⟩ :=
      rcLoop_inputErr_src words words.length words.length 0 RCSt.init hne
    exact ⟨j, hj2, hj3, hj4⟩
  · intro h
    have hne : (rcLoop words words.length words.length 0 RCSt.init).outputErr ≠
        RCSt.init.outputErr := by
      simp only [redirection_check_arg] at h
      split_ifs at h with c1 c2 c3
      all_goals try (show _ ≠ 0; omega)
      all_goals simp at h
    obtain ⟨j, _, hj2, hj3, hj4⟩ :=
      rcLoop_outputErr_src words words.length words.length 0 RCSt.init hne
    exact ⟨j, hj2, hj3, hj4⟩
  · intro h
    have hne : (rcLoop words words.length words.length 0 RCSt.init).pipeErr ≠
        RCSt.init.pipeErr := by
      simp only [redirection_check_arg] at h
      split_ifs at h with c1 c2 c3
      all_goals try (show _ ≠ 0; omega)
      all_goals simp at h
    obtain ⟨j, _, hj2, hj3, hj4⟩ :=
      rcLoop_pipeErr_src words words.length words.length 0 RCSt.init hne
    exact ⟨j, hj2, hj3, hj4⟩
  · intro env hist e h
    cases words with
    | nil => simp [redirection_check_arg, rcLoop, RCSt.init] at h
    | cons a t =>
      simp only [execute_command, List.isEmpty_cons, Bool.false_eq_true,
        if_false, h]

/-- Witness for C8: the spec §8 examples - `a b > out` validates, `| a`
fails with the pipe error at a violating `|`, and `> a b` aborts the
line with the output diagnostic only. -/
theorem redirectionValidationPositions_witness :
    (∃ v, redirection_check_arg ["a", "b", ">", "out"] = .ok v) ∧
    (∃ j, j < (["|", "a"] : List String).length ∧
      (["|", "a"] : List String).getD j "" = "|" ∧
      ¬(0 < j ∧ j + 1 < (["|", "a"] : List String).length ∧
        (["|", "a"] : List String).getD (j - 1) "" ≠ "|")) ∧
    execute_command envNone none [">", "a", "b"] =
      ([.errInvalidOutputRedir], none) :=
  ⟨(redirectionValidationPositions ["a", "b", ">", "out"]).1.mpr (by decide),
   (redirectionValidationPositions ["|", "a"]).2.2.2.1 rfl,
   (redirectionValidationPositions [">", "a", "b"]).2.2.2.2 envNone none
     .errInvalidOutputRedir rfl⟩

/-! ## Pipeline builtin rejection (for the builtin-protection claim) -/

/-- When any stage head of the scan is one of the builtin names, the
`get_programs` loop returns a diagnostic (the builtin one, or
not-found when an earlier head fails to resolve) and never a program
list. -/
theorem gpLoop_builtin_error (env : Env) (words : List String) (max : Nat) :
    ∀ (fuel i : Nat) (isNew : Bool) (acc : List String),
      (∃ w ∈ gpHeads words max fuel i isNew,
        w = "pwd" ∨ w = "cd" ∨ w = "history" ∨ w = "!") →
      ∃ e, gpLoop env words max fuel i isNew acc = .error e ∧
        e.isSpawn = false ∧ e.isErr = true := by
  intro fuel
  induction fuel with
  | zero =>
    intro i isNew acc h
    obtain ⟨w, hw, _⟩ := h
    simp [gpHeads] at hw
  | succ fuel ih =>
    intro i isNew acc h
    obtain ⟨w, hw, hb⟩ := h
    simp only [gpHeads] at hw
    by_cases hi : i < max
    case neg =>
      rw [if_neg hi] at hw
      simp at hw
    case pos =>
      rw [if_pos hi] at hw
      by_cases hgt : words.getD i "" = ">"
      · rw [if_pos hgt] at hw
        simp at hw
      · rw [if_neg hgt] at hw
        by_cases hp : words.getD i "" = "|"
        · rw [if_pos hp] at hw
          obtain ⟨e, he, he2, he3⟩ := ih (i + 1) true acc ⟨w, hw, hb⟩
          refine ⟨e, ?_, he2, he3⟩
          simp only [gpLoop]
          rw [if_pos hi, if_neg hgt, if_pos hp]
          exact he
        · rw [if_neg hp] at hw
          cases isNew with
          | false =>
            rw [if_neg (by simp)] at hw
            obtain ⟨e, he, he2, he3⟩ := ih (i + 1) false acc ⟨w, hw, hb⟩
            refine ⟨e, ?_, he2, he3⟩
            simp only [gpLoop]
            rw [if_pos hi, if_neg hgt, if_neg hp, if_neg (by simp)]
            exact he
          | true =>
            rw [if_pos rfl] at hw
            by_cases hbw : words.getD i "" = "pwd" ∨ words.getD i "" = "cd" ∨
                words.getD i "" = "history" ∨ words.getD i "" = "!"
            · refine ⟨.errBuiltinRedir (words.getD i ""), ?_, rfl, rfl⟩
              simp only [gpLoop]
              rw [if_pos hi, if_neg hgt, if_neg hp, if_pos trivial, if_pos hbw]
            · have hwtail : w ∈ gpHeads words max fuel (i + 1) false := by
                rcases List.mem_cons.mp hw with rfl | htail
                · exact absurd hb hbw
                · exact htail
              simp only [gpLoop]
              rw [if_pos hi, if_neg hgt, if_neg hp, if_pos trivial, if_neg hbw]
              cases hpr : (if containsChar (words.getD i "") '/' = true then
                  some (words.getD i "")
                else
                  (env.path.find? fun d =>
                    env.isExec (d ++ "/" ++ words.getD i "")).map
                    fun d => d ++ "/" ++ words.getD i "") with
              | none => exact ⟨.errCommandNotFound (words.getD i ""), rfl, rfl, rfl⟩
              | some p =>
                obtain ⟨e, he, he2, he3⟩ :=
                  ih (i + 1) false (p :: acc) ⟨w, hwtail, hb⟩
                exact ⟨e, he, he2, he3⟩

/-- With a builtin resolved program (`pwd`, `cd`, `history`) and any
redirection or pipe counter set, the tail of `execute_command` reports
exactly the builtin I/O-redirection diagnostic. -/
theorem execStoreEvents_builtin_redir (env : Env) (hist : Option (List String))
    (words : List String) (inputR outputR pc : Nat)
    (hprog : progOf words = "pwd" ∨ progOf words = "cd" ∨ progOf words = "history")
    (hflags : inputR ≠ 0 ∨ outputR ≠ 0 ∨ pc ≠ 0) :
    execStoreEvents env hist words inputR outputR pc =
      [.errBuiltinRedir (progOf words)] := by
  rcases hprog with h | h | h
  · simp only [execStoreEvents]
    rw [h, if_neg (show ("pwd" : String) ≠ "exit" from by decide),
      if_pos (show ("pwd" : String) = "pwd" from rfl), if_pos hflags]
  · simp only [execStoreEvents]
    rw [h, if_neg (show ("cd" : String) ≠ "exit" from by decide),
      if_neg (show ("cd" : String) ≠ "pwd" from by decide),
      if_pos (show ("cd" : String) = "cd" from rfl), if_pos hflags]
  · simp only [execStoreEvents]
    rw [h, if_neg (show ("history" : String) ≠ "exit" from by decide),
      if_neg (show ("history" : String) ≠ "pwd" from by decide),
      if_neg (show ("history" : String) ≠ "cd" from by decide),
      if_pos (show ("history" : String) = "history" from rfl), if_pos hflags]

/-- C2 (amended): a line whose position-0 token is `!`, or whose
resolved program (position 0, or 2 after `<`) is `pwd`, `cd` or
`history`, and which carries any redirection or pipe token, is rejected
with the distinct builtin I/O-redirection diagnostic and spawns
nothing; a pipeline (metacharacter-free, not bang, not exit-headed) any
of whose stage heads is `pwd`, `cd`, `history` or `!` spawns nothing
and reports a diagnostic.  (`exit` enjoys no such protection: see the
counterexample.) -/
theorem builtinRedirectionRejection :
    (∀ (env : Env) (hist : Option (List String)) (words : List String)
        (inputR outputR pc : Nat),
      redirection_check_arg words = .ok (inputR, outputR, pc) →
      inputR + outputR + pc ≠ 0 →
      (words.getD 0 "" = "!" ∨ progOf words = "pwd" ∨ progOf words = "cd" ∨
        progOf words = "history") →
      (∃ p, Event.errBuiltinRedir p ∈ (execute_command env hist words).1) ∧
      (∀ ev ∈ (execute_command env hist words).1, ev.isSpawn = false)) ∧
    (∀ (env : Env) (hist : Option (List String)) (words : List String)
        (inputR outputR pc : Nat),
      redirection_check_arg words = .ok (inputR, outputR, pc) →
      pc ≠ 0 →
      (∀ w ∈ words, hasMeta w = false) →
      words.getD 0 "" ≠ "!" →
      progOf words ≠ "exit" →
      (∃ w ∈ stageHeads words words.length inputR,
        w = "pwd" ∨ w = "cd" ∨ w = "history" ∨ w = "!") →
      (∀ ev ∈ (execute_command env hist words).1, ev.isSpawn = false) ∧
      (∃ ev ∈ (execute_command env hist words).1, ev.isErr = true)) := by
  constructor
  · intro env hist words inputR outputR pc hcheck hflags hprog
    cases words with
    | nil =>
      exfalso
      rcases hprog with h | h | h | h <;> exact absurd h (by decide)
    | cons a t =>
      simp only [execute_command, List.isEmpty_cons, Bool.false_eq_true,
        if_false, hcheck]
      by_cases hbang : (a :: t).getD 0 "" = "!"
      · rw [if_pos hbang]
        simp only [execBang]
        rw [if_pos (by omega)]
        exact ⟨⟨"!", by simp⟩, by simp [Event.isSpawn]⟩
      · rw [if_neg hbang]
        have hprog2 : progOf (a :: t) = "pwd" ∨ progOf (a :: t) = "cd" ∨
            progOf (a :: t) = "history" := by
          rcases hprog with h | h | h | h
          · exact absurd h hbang
          · exact Or.inl h
          · exact Or.inr (Or.inl h)
          · exact Or.inr (Or.inr h)
        show (∃ p, Event.errBuiltinRedir p ∈
            (execStore env hist (a :: t) inputR outputR pc).1) ∧ _
        simp only [execStore]
        rw [execStoreEvents_builtin_redir env hist (a :: t) inputR outputR pc
          hprog2 (by omega)]
        exact ⟨⟨progOf (a :: t), by simp⟩, by simp [Event.isSpawn]⟩
  · intro env hist words inputR outputR pc hcheck hpc hmeta hbang hexit hhead
    cases words with
    | nil =>
      exfalso
      obtain ⟨w, hw, _⟩ := hhead
      simp [stageHeads, gpHeads] at hw
    | cons a t =>
      simp only [execute_command, List.isEmpty_cons, Bool.false_eq_true,
        if_false, hcheck]
      rw [if_neg hbang]
      by_cases hprog : progOf (a :: t) = "pwd" ∨ progOf (a :: t) = "cd" ∨
          progOf (a :: t) = "history"
      · show (∀ ev ∈ (execStore env hist (a :: t) inputR outputR pc).1, _) ∧ _
        simp only [execStore]
        rw [execStoreEvents_builtin_redir env hist (a :: t) inputR outputR pc
          hprog (by omega)]
        exact ⟨by simp [Event.isSpawn],
          ⟨Event.errBuiltinRedir (progOf (a :: t)), by simp, rfl⟩⟩
      · push_neg at hprog
        obtain ⟨hpwd, hcd, hhist2⟩ := hprog
        show (∀ ev ∈ (execStore env hist (a :: t) inputR outputR pc).1, _) ∧ _
        simp only [execStore, execStoreEvents]
        rw [if_neg hexit,
          check_glob_no_meta env.glob (a :: t) hmeta,
          if_neg hpwd, if_neg hcd, if_neg hhist2]
        by_cases hx : env.isExec (resolveProgram env (progOf (a :: t))) = true
        · rw [if_pos hx, if_neg hpc]
          obtain ⟨e, he, he2, he3⟩ := gpLoop_builtin_error env (a :: t)
            (a :: t).length (a :: t).length (if inputR > 0 then 2 else 0) true []
            hhead
          rw [show get_programs env (a :: t).length (a :: t) inputR =
            gpLoop env (a :: t) (a :: t).length (a :: t).length
              (if inputR > 0 then 2 else 0) true [] from rfl, he]
          exact ⟨by simp [he2], ⟨e, by simp, he3⟩⟩
        · rw [if_neg hx]
          exact ⟨by simp [Event.isSpawn],
            ⟨Event.errCommandNotFound (resolveProgram env (progOf (a :: t))),
              by simp, rfl⟩⟩

/-- Witness for C2 (amended): `pwd | cat` draws the builtin diagnostic
with nothing spawned; `a | pwd` (with `/bin/a` executable) is rejected
inside `get_programs` with nothing spawned and a diagnostic
reported. -/
theorem builtinRedirectionRejection_witness :
    ((∃ p, Event.errBuiltinRedir p ∈
        (execute_command envNone none ["pwd", "|", "cat"]).1) ∧
      (∀ ev ∈ (execute_command envNone none ["pwd", "|", "cat"]).1,
        ev.isSpawn = false)) ∧
    ((∀ ev ∈ (execute_command envTwoProgs none ["a", "|", "pwd"]).1,
        ev.isSpawn = false) ∧
      (∃ ev ∈ (execute_command envTwoProgs none ["a", "|", "pwd"]).1,
        ev.isErr = true)) :=
  ⟨builtinRedirectionRejection.1 envNone none ["pwd", "|", "cat"] 0 0 1 rfl
    (by decide) (by decide),
   builtinRedirectionRejection.2 envTwoProgs none ["a", "|", "pwd"] 0 0 1 rfl
    (by decide) (by decide) (by decide) (by decide) (by decide)⟩

end Shuck
